import Mathlib

/-!
Verification development for the TrustyReader e-ink firmware.

The Rust sources are shallowly embedded as Lean definitions.  Machine
integers (`u16`, `u32`, `usize`, byte values) are modelled as `Nat`;
Rust's `saturating_sub` becomes truncated `Nat` subtraction, which has
the same semantics.  Rust strings are modelled as lists of characters
(`Str`); byte positions inside strings coincide with character positions
on the ASCII inputs used in the concrete scenarios.  Each definition is
named after the Rust item it embeds and follows the source line by line.
-/

set_option maxHeartbeats 2000000

abbrev Str := List Char

/-- Whitespace as recognised by the ASCII helpers of Rust's standard
library (`u8::is_ascii_whitespace` / `trim_ascii`): space, tab, line
feed, form feed and carriage return. -/
def isAsciiWS (c : Char) : Bool :=
  c = ' ' || c = '\t' || c = '\n' || c = '\x0c' || c = '\r'

/-- Whitespace as recognised by Rust's `char::is_whitespace` and
`str::split_whitespace`, restricted to the ASCII range that the embedded
inputs use. -/
def isUniWS (c : Char) : Bool :=
  c = ' ' || c = '\t' || c = '\n' || c = '\x0b' || c = '\x0c' || c = '\r'

/-- Embeds `str::trim_ascii_start`. -/
def trimAsciiStart (s : Str) : Str := s.dropWhile isAsciiWS

/-- Embeds `str::trim_ascii_end`. -/
def trimAsciiEnd (s : Str) : Str := (s.reverse.dropWhile isAsciiWS).reverse

/-- Embeds `str::trim_ascii` (also used for `[u8]::trim_ascii`). -/
def trimAscii (s : Str) : Str := trimAsciiEnd (trimAsciiStart s)

/-- Splitting at a whitespace predicate: maximal runs of
non-whitespace characters, with empty items dropped.  Structured with
fuel so that it reduces in the kernel; each step consumes at least one
character, so fuel equal to the input length always suffices. -/
def splitWSGo (p : Char → Bool) : Nat → Str → List Str
  | 0, _ => []
  | fuel + 1, s =>
    match s with
    | [] => []
    | c :: rest =>
      if p c then splitWSGo p fuel rest
      else
        (c :: rest.takeWhile (fun d => !(p d))) ::
          splitWSGo p fuel (rest.dropWhile (fun d => !(p d)))

/-- Embeds `str::split_whitespace`. -/
def splitWhitespace (s : Str) : List Str := splitWSGo isUniWS s.length s

/-- Embeds `str::split_ascii_whitespace`. -/
def splitAsciiWhitespace (s : Str) : List Str := splitWSGo isAsciiWS s.length s

/-- Embeds `str::to_ascii_lowercase` character by character. -/
def toAsciiLower (s : Str) : Str := s.map Char.toLower

/-- Embeds `str::split(sep)` for a single separator character. -/
def splitOnChar (sep : Char) : Str → List Str
  | [] => [[]]
  | c :: rest =>
    if c = sep then [] :: splitOnChar sep rest
    else
      match splitOnChar sep rest with
      | [] => [[c]]
      | w :: ws => (c :: w) :: ws

/-- Embeds `str::split_once(sep)` for a single separator character. -/
def splitOnceChar (sep : Char) (s : Str) : Option (Str × Str) :=
  match s.findIdx? (fun c => c = sep) with
  | none => none
  | some i => some (s.take i, s.drop (i + 1))

/-- Embeds `str::split_once(|c| c.is_ascii_whitespace())`. -/
def splitOnceAsciiWS (s : Str) : Option (Str × Str) :=
  match s.findIdx? isAsciiWS with
  | none => none
  | some i => some (s.take i, s.drop (i + 1))

/-- Equality of ASCII strings up to case, embedding
`str::eq_ignore_ascii_case`. -/
def eqIgnoreAsciiCase (a b : Str) : Bool :=
  a.map Char.toLower = b.map Char.toLower

namespace layout

/-- Embeds `layout::Alignment`. -/
inductive Alignment where
  | Start
  | Center
  | End
  | Justify
deriving DecidableEq, Repr

end layout

namespace font

/-- Embeds `font::FontStyle`. -/
inductive FontStyle where
  | Regular
  | Bold
  | Italic
  | BoldItalic
deriving DecidableEq, Repr

end font

namespace css

/-- Embeds `css::Rule` (`alignment`, `italic`, `bold`, `indent`). -/
structure Rule where
  alignment : Option layout.Alignment
  italic : Option Bool
  bold : Option Bool
  indent : Option Nat
deriving DecidableEq, Repr

/-- Embeds `impl Default for Rule`: all fields `None`. -/
def Rule.default : Rule :=
  { alignment := none, italic := none, bold := none, indent := none }

/-- Embeds `Option::or` as used by `impl Add for Rule`. -/
def optOr {α : Type} : Option α → Option α → Option α
  | some a, _ => some a
  | none, b => b

/-- Embeds `impl Add for Rule`: the left-biased field-by-field merge
`self.field.or(rhs.field)`. -/
def Rule.add (a b : Rule) : Rule :=
  { alignment := optOr a.alignment b.alignment
    italic := optOr a.italic b.italic
    bold := optOr a.bold b.bold
    indent := optOr a.indent b.indent }

instance : Add Rule := ⟨Rule.add⟩

/-- Embeds `Rule::from_str`: parse the declarations of a `style`
attribute or rule body, recognising `text-align`, `font-style`,
`font-weight` and `text-indent` and silently ignoring the rest. -/
def Rule.fromStr (s : Str) : Rule :=
  let s := toAsciiLower (trimAscii s)
  let parts := (splitOnChar ';' s).map trimAscii
  parts.foldl
    (fun rule part =>
      match splitOnceChar ':' part with
      | none => rule
      | some (key, value) =>
        let key := trimAscii key
        let value := trimAscii value
        if key = String.toList "text-align" then
          { rule with alignment :=
              (if value = String.toList "start" ∨ value = String.toList "left" then
                some layout.Alignment.Start
              else if value = String.toList "end" ∨ value = String.toList "right" then
                some layout.Alignment.End
              else if value = String.toList "center" then some layout.Alignment.Center
              else if value = String.toList "justify" then some layout.Alignment.Justify
              else none) }
        else if key = String.toList "font-style" then
          { rule with italic :=
              (if value = String.toList "normal" then some false
              else if value = String.toList "italic" then some true
              else none) }
        else if key = String.toList "font-weight" then
          { rule with bold :=
              (if value = String.toList "normal" then some false
              else if value = String.toList "bold" then some true
              else none) }
        else if key = String.toList "text-indent" then
          (match value.reverse with
           | 'x' :: 'p' :: restRev =>
             let digits := restRev.reverse
             if digits ≠ [] ∧ digits.all Char.isDigit then
               { rule with indent := some (digits.foldl (fun a c => a * 10 + (c.toNat - 48)) 0) }
             else rule
           | _ => rule)
        else rule)
    Rule.default

/-- Embeds `css::Selector`. -/
structure Selector where
  element : Option Str
  id : Option Str
  classes : List Str
deriving DecidableEq, Repr

/-- Embeds `Selector::matches(element, id, classes)`. -/
def Selector.matches (sel : Selector) (element : Str) (id : Option Str)
    (classes : List Str) : Bool :=
  (match sel.element with
   | some el => el = element
   | none => true) &&
  (match sel.id with
   | some selId =>
     match id with
     | some elId => elId = selId
     | none => false
   | none => true) &&
  sel.classes.all (fun c => classes.contains c)

/-- Embeds `Selector::specificity`: the triple
(has-id, number of classes, has-element). -/
def Selector.specificity (sel : Selector) : Nat × Nat × Nat :=
  ((if sel.id.isSome then 1 else 0), sel.classes.length,
   (if sel.element.isSome then 1 else 0))

/-- Lexicographic comparison on the `((u8, u8, u8), usize)` sort keys
used by `Stylesheet::get`, matching the derived `Ord` on Rust tuples. -/
def keyLe (a b : (Nat × Nat × Nat) × Nat) : Bool :=
  let ((a1, a2, a3), a4) := a
  let ((b1, b2, b3), b4) := b
  if a1 ≠ b1 then a1 < b1
  else if a2 ≠ b2 then a2 < b2
  else if a3 ≠ b3 then a3 < b3
  else a4 ≤ b4

/-- Stable insertion of a keyed element: placed after existing elements
with keys less than or equal to its own, as a stable sort does. -/
def insortBy {α : Type} (key : α → (Nat × Nat × Nat) × Nat) (x : α) :
    List α → List α
  | [] => [x]
  | y :: ys => if keyLe (key y) (key x) then y :: insortBy key x ys else x :: y :: ys

/-- Stable sort by key, embedding `slice::sort_by_key` (which is a
stable ascending sort). -/
def sortByKey {α : Type} (key : α → (Nat × Nat × Nat) × Nat) :
    List α → List α
  | [] => []
  | x :: xs => insortBy key x (sortByKey key xs)

/-- Embeds `css::Stylesheet` as its ordered list of rules. -/
structure Stylesheet where
  rules : List (Selector × Rule)

/-- Embeds `Stylesheet::get(element, id, class)`: collect the matching
rules, sort them by ascending `(specificity, source index)`, and fold
them with `Rule::default()` as the accumulator on the left of `+`. -/
def Stylesheet.get (sheet : Stylesheet) (element : Str) (id : Option Str)
    (class? : Option Str) : Rule :=
  let classes : List Str :=
    match class? with
    | some c => splitWhitespace c
    | none => []
  let matched : List ((Nat × Nat × Nat) × Nat × Rule) :=
    ((sheet.rules.enum.filter
        (fun p => p.2.1.matches element id classes)).map
      (fun p => (p.2.1.specificity, p.1, p.2.2)))
  let sorted := sortByKey (fun m => (m.1, m.2.1)) matched
  sorted.foldl (fun acc m => acc + m.2.2) Rule.default

/-- Embeds `Stylesheet::new`. -/
def Stylesheet.new : Stylesheet := { rules := [] }

end css

namespace layout

/-- Embeds `layout::Options`.  The field `font` gives, per style, the
advance width of each character (`char_width(c).unwrap_or(0)` as used by
`word_width`); `hyph` embeds the external syllable iterator
`hypher` applies to `(word, language)`, as a function from a word to
its parts. -/
structure Options where
  width : Nat
  spaceWidth : Nat
  dashWidth : Nat
  font : font.FontStyle → Char → Nat
  hyph : Str → List Str

/-- `FontDefinition::word_width` with exact (unbounded) natural-number
addition: the wrap-free mathematical model of the `u16` fold, used to
factor the proofs.  See `wordWidth` for the faithful wrapping
version. -/
def wordWidthN (f : Char → Nat) (w : Str) : Nat :=
  w.foldl (fun acc c => acc + f c) 0

/-- Embeds `layout::Text`: a placed word. -/
structure Text where
  text : Str
  x : Nat
  style : font.FontStyle
deriving DecidableEq, Repr

/-- Embeds `layout::Line`. -/
structure Line where
  words : List Text
  hyphenated : Bool
deriving DecidableEq, Repr

/-- Embeds `layout::Run`. -/
structure Run where
  text : Str
  style : font.FontStyle
  breaking : Bool
deriving DecidableEq, Repr

/-- Embeds the loop body of `layout::justify`: walk the words after the
first, handing one extra pixel to each gap while `rem` lasts and adding
the accumulated `offset` plus the base `space` increment to each word. -/
def justifyGo (space : Nat) : Nat → Nat → List Text → List Text
  | _, _, [] => []
  | rem, offset, w :: ws =>
    let offset' := if rem > 0 then offset + 1 else offset
    let rem' := if rem > 0 then rem - 1 else rem
    { w with x := w.x + offset' + space } :: justifyGo space rem' (offset' + space) ws

/-- Embeds `layout::justify(room, words)`. -/
def justify (room : Nat) (words : List Text) : List Text :=
  let whitespaces := words.length - 1
  if whitespaces = 0 then words
  else
    let space := room / whitespaces
    let rem := room % whitespaces
    match words with
    | [] => []
    | w :: ws => w :: justifyGo space rem 0 ws

/-- Embeds `layout::nudge_by`. -/
def nudgeBy (offset : Nat) (words : List Text) : List Text :=
  words.map (fun w => { w with x := w.x + offset })

/-- Embeds `layout::nudge`. -/
def nudge (a : Alignment) (space : Nat) (words : List Text) : List Text :=
  match a with
  | Alignment.Start => words
  | Alignment.Center => nudgeBy (space / 2) words
  | Alignment.End => nudgeBy space words
  | Alignment.Justify => words

/-- Embeds `layout::align`. -/
def align (a : Alignment) (space : Nat) (words : List Text) : List Text :=
  match a with
  | Alignment.Start => words
  | Alignment.Justify => justify space words
  | _ => nudge a space words

/-- The syllable loop of the hyphenation routine with exact Nat
arithmetic (wrap-free model; see `hyphenateGo` for the faithful
version): `len` is the length of the already-accepted prefix of `word`
and `space` the remaining budget.  When a part no longer fits, the
accepted prefix (with a trailing literal hyphen stripped in exchange
for the dash width) is pushed onto the current line and the suffix and
leftover budget are returned. -/
def hyphenateGoN (o : Options) (style : font.FontStyle) (word : Str) (x0 : Nat)
    (cur : Line) : List Str → Nat → Nat → Option (Line × Str × Nat)
  | [], _, _ => none
  | part :: rest, len, space =>
    let pw := wordWidthN (o.font style) part
    if pw > space then
      if len = 0 then none
      else
        let x1 := if cur.words ≠ [] then x0 + o.spaceWidth else x0
        let text := word.take len
        let pushed : layout.Text :=
          if text.getLast? = some '-' then
            { text := text.dropLast, x := x1 + o.dashWidth, style := style }
          else { text := text, x := x1, style := style }
        some ({ words := cur.words ++ [pushed], hyphenated := true },
              word.drop len, space)
    else hyphenateGoN o style word x0 cur rest (len + part.length) (space - pw)

/-- The hyphenation routine with exact Nat arithmetic (wrap-free
model; see `hyphenate` for the faithful version).  Byte lengths of
syllable parts are modelled as character counts, which coincide on
part boundaries because the parts concatenate to the word. -/
def hyphenateN (o : Options) (x : Nat) (word : Str) (cur : Line)
    (style : font.FontStyle) : Option (Line × Str × Nat) :=
  if word.length < 5 then none
  else
    let space := o.width - (x + o.spaceWidth + o.dashWidth)
    if space = 0 then none
    else hyphenateGoN o style word x cur (o.hyph word) 0 space

/-- State of the `layout_text` loop: the running horizontal position,
the finished lines, and the line under construction. -/
structure LState where
  x : Nat
  lines : List Line
  cur : Line

/-- One iteration of the per-word loop with exact Nat arithmetic
(wrap-free model; see `placeWord` for the faithful version): wrap
(with optional hyphenation and alignment of the finished line) when
the word does not fit, then place the word on the current line. -/
def placeWordN (o : Options) (a : Alignment) (style : font.FontStyle)
    (st : LState) (word0 : Str) : LState :=
  let f := o.font style
  let ww0 := wordWidthN f word0
  let wrapped : Str × Nat × LState :=
    if st.x + o.spaceWidth + ww0 ≥ o.width then
      match hyphenateN o st.x word0 st.cur style with
      | some (cur', rem, remWidth) =>
        let x' := o.width - remWidth
        let space := o.width - x'
        (rem, wordWidthN f rem,
         { x := 0,
           lines := st.lines ++ [{ words := align a space cur'.words,
                                   hyphenated := cur'.hyphenated }],
           cur := { words := [], hyphenated := false } })
      | none =>
        let space := o.width - st.x
        (word0, ww0,
         { x := 0,
           lines := st.lines ++ [{ words := align a space st.cur.words,
                                   hyphenated := st.cur.hyphenated }],
           cur := { words := [], hyphenated := false } })
    else (word0, ww0, st)
  let word := wrapped.1
  let ww := wrapped.2.1
  let st := wrapped.2.2
  let x := if st.cur.words ≠ [] then st.x + o.spaceWidth else st.x
  { x := x + ww,
    lines := st.lines,
    cur := { words := st.cur.words ++ [{ text := word, x := x, style := style }],
             hyphenated := st.cur.hyphenated } }

/-- The per-run loop body with exact Nat arithmetic (wrap-free model;
see `processRun` for the faithful version): place every
whitespace-separated word of the run, then flush the current line with
alignment if the run is breaking. -/
def processRunN (o : Options) (a : Alignment) (st : LState) (run : Run) : LState :=
  let st := (splitWhitespace run.text).foldl (placeWordN o a run.style) st
  if run.breaking then
    { x := 0,
      lines := st.lines ++ [{ words := align a (o.width - st.x) st.cur.words,
                              hyphenated := st.cur.hyphenated }],
      cur := { words := [], hyphenated := false } }
  else st

/-- `layout_text` with exact Nat arithmetic (wrap-free model; see
`layout_text` for the faithful version). -/
def layout_textN (o : Options) (a : Alignment) (indent : Nat)
    (runs : List Run) : List Line :=
  let st := runs.foldl (processRunN o a)
    { x := indent, lines := [], cur := { words := [], hyphenated := false } }
  if st.cur.words ≠ [] then
    st.lines ++ [{ words := nudge a (o.width - st.x) st.cur.words,
                   hyphenated := st.cur.hyphenated }]
  else st.lines

/-- Embeds `FontDefinition::word_width`: a `u16` fold of per-character
advances, with absent glyphs contributing 0 (already folded into the
`font` function).  Each `u16` addition wraps modulo 2^16, as in
release builds. -/
def wordWidth (f : Char → Nat) (w : Str) : Nat :=
  w.foldl (fun acc c => (acc + f c) % 65536) 0

/-- Embeds the syllable loop of `layout::hyphenate`: `len` is the
length of the already-accepted prefix of `word` and `space` the
remaining budget.  When a part no longer fits, the accepted prefix
(with a trailing literal hyphen stripped in exchange for the dash
width) is pushed onto the current line and the suffix and leftover
budget are returned.  The `u16` increments of the cursor `x` wrap
modulo 2^16; `space - pw` is guarded by `pw > space` and cannot
underflow. -/
def hyphenateGo (o : Options) (style : font.FontStyle) (word : Str) (x0 : Nat)
    (cur : Line) : List Str → Nat → Nat → Option (Line × Str × Nat)
  | [], _, _ => none
  | part :: rest, len, space =>
    let pw := wordWidth (o.font style) part
    if pw > space then
      if len = 0 then none
      else
        let x1 := if cur.words ≠ [] then (x0 + o.spaceWidth) % 65536 else x0
        let text := word.take len
        let pushed : layout.Text :=
          if text.getLast? = some '-' then
            { text := text.dropLast, x := (x1 + o.dashWidth) % 65536,
              style := style }
          else { text := text, x := x1, style := style }
        some ({ words := cur.words ++ [pushed], hyphenated := true },
              word.drop len, space)
    else hyphenateGo o style word x0 cur rest (len + part.length) (space - pw)

/-- Embeds `layout::hyphenate(x, word, current_line, options, style)`.
The inner sum `x + space_width + dash_width` wraps modulo 2^16 before
the saturating subtraction from `width`.  Byte lengths of syllable
parts are modelled as character counts, which coincide on part
boundaries because the parts concatenate to the word. -/
def hyphenate (o : Options) (x : Nat) (word : Str) (cur : Line)
    (style : font.FontStyle) : Option (Line × Str × Nat) :=
  if word.length < 5 then none
  else
    let space := o.width - ((x + o.spaceWidth + o.dashWidth) % 65536)
    if space = 0 then none
    else hyphenateGo o style word x cur (o.hyph word) 0 space

/-- Embeds one iteration of the per-word loop of `layout_text`: wrap
(with optional hyphenation and alignment of the finished line) when
the word does not fit, then place the word on the current line.  The
`u16` sums of the wrap guard and of the cursor increments wrap modulo
2^16; `width - remaining_width` cannot underflow because the returned
budget never exceeds `width`. -/
def placeWord (o : Options) (a : Alignment) (style : font.FontStyle)
    (st : LState) (word0 : Str) : LState :=
  let f := o.font style
  let ww0 := wordWidth f word0
  let wrapped : Str × Nat × LState :=
    if (st.x + o.spaceWidth + ww0) % 65536 ≥ o.width then
      match hyphenate o st.x word0 st.cur style with
      | some (cur', rem, remWidth) =>
        let x' := o.width - remWidth
        let space := o.width - x'
        (rem, wordWidth f rem,
         { x := 0,
           lines := st.lines ++ [{ words := align a space cur'.words,
                                   hyphenated := cur'.hyphenated }],
           cur := { words := [], hyphenated := false } })
      | none =>
        let space := o.width - st.x
        (word0, ww0,
         { x := 0,
           lines := st.lines ++ [{ words := align a space st.cur.words,
                                   hyphenated := st.cur.hyphenated }],
           cur := { words := [], hyphenated := false } })
    else (word0, ww0, st)
  let word := wrapped.1
  let ww := wrapped.2.1
  let st := wrapped.2.2
  let x := if st.cur.words ≠ [] then (st.x + o.spaceWidth) % 65536 else st.x
  { x := (x + ww) % 65536,
    lines := st.lines,
    cur := { words := st.cur.words ++ [{ text := word, x := x, style := style }],
             hyphenated := st.cur.hyphenated } }

/-- Embeds the per-run part of `layout_text`: place every
whitespace-separated word of the run, then flush the current line with
alignment if the run is breaking. -/
def processRun (o : Options) (a : Alignment) (st : LState) (run : Run) : LState :=
  let st := (splitWhitespace run.text).foldl (placeWord o a run.style) st
  if run.breaking then
    { x := 0,
      lines := st.lines ++ [{ words := align a (o.width - st.x) st.cur.words,
                              hyphenated := st.cur.hyphenated }],
      cur := { words := [], hyphenated := false } }
  else st

/-- Embeds `layout::layout_text(options, alignment, indent, runs)`. -/
def layout_text (o : Options) (a : Alignment) (indent : Nat)
    (runs : List Run) : List Line :=
  let st := runs.foldl (processRun o a)
    { x := indent, lines := [], cur := { words := [], hyphenated := false } }
  if st.cur.words ≠ [] then
    st.lines ++ [{ words := nudge a (o.width - st.x) st.cur.words,
                   hyphenated := st.cur.hyphenated }]
  else st.lines

end layout

/-- Embeds `book::Paragraph`. -/
structure Paragraph where
  runs : List layout.Run
  alignment : Option layout.Alignment
  indent : Option Nat
deriving DecidableEq, Repr

/-- Embeds `book::Chapter`. -/
structure Chapter where
  title : Option Str
  paragraphs : List Paragraph
deriving DecidableEq, Repr

/-- Embeds the part of `book::Book` that `ReaderActivity::next_page`
and `next_chapter` consume: `chapter_count()` and `chapter(index,
file)`, the latter modelled as a pure lookup because the file source is
external. -/
structure Book where
  count : Nat
  chapterAt : Nat → Option Chapter

namespace reader

/-- Embeds `reader::Progress`: the (paragraph, line) page cursor. -/
structure Progress where
  paragraph : Nat
  line : Nat
deriving DecidableEq, Repr

/-- Embeds `reader::Page`; the field `stop` embeds the Rust field
named `end`. -/
structure Page where
  start : Progress
  stop : Progress

/-- The fields of `ReaderActivity` read or written by `next_page` and
`next_chapter`. -/
structure ReaderState where
  book : Option Book
  chapterIdx : Nat
  chapter : Option Chapter
  progress : Page

/-- Lexicographic order on `Progress`, as used by the paginator
monotonicity property. -/
def progLt (a b : Progress) : Prop :=
  a.paragraph < b.paragraph ∨ (a.paragraph = b.paragraph ∧ a.line < b.line)

instance (a b : Progress) : Decidable (progLt a b) := by
  unfold progLt
  infer_instance

/-- Embeds `ReaderActivity::next_chapter`. -/
def next_chapter (st : ReaderState) : ReaderState :=
  match st.book with
  | none => st
  | some b =>
    if st.chapterIdx + 1 ≥ b.count then st
    else
      { st with
        chapterIdx := st.chapterIdx + 1,
        chapter := b.chapterAt (st.chapterIdx + 1),
        progress := { st.progress with start := { paragraph := 0, line := 0 } } }

/-- Embeds `ReaderActivity::next_page`. -/
def next_page (st : ReaderState) : ReaderState :=
  match st.chapter with
  | none => next_chapter st
  | some chapter =>
    let e := st.progress.stop
    let atEnd := e.paragraph ≥ chapter.paragraphs.length
    if ¬ atEnd then
      { st with progress :=
          { st.progress with
            start := { paragraph := e.paragraph, line := e.line } } }
    else next_chapter st

end reader

namespace zip

/-- Embeds `zip::ZipError`. -/
inductive ZipError where
  | ioError
  | invalidSignature
  | unsupportedCompression
  | decompressionError
  | invalidData
deriving DecidableEq, Repr

/-- Embeds `ZipFileEntry` (the entry name is irrelevant to opening). -/
structure ZipFileEntry where
  size : Nat
  offset : Nat

/-- A seekable byte source, embedding the `Read + Seek` reader that
`ZipEntryReader::new` drives: the full byte sequence plus the current
position. -/
structure Source where
  data : List Nat
  pos : Nat

/-- Little-endian 16-bit read at `i`, as `zerocopy::FromBytes` performs
on the little-endian target. -/
def le16 (bytes : List Nat) (i : Nat) : Nat :=
  bytes.getD i 0 + 256 * bytes.getD (i + 1) 0

/-- Little-endian 32-bit read at `i`. -/
def le32 (bytes : List Nat) (i : Nat) : Nat :=
  le16 bytes i + 65536 * le16 bytes (i + 2)

/-- Size of `LocalFileHeader` in bytes. -/
def lfhSize : Nat := 30

/-- The fields of `ZipEntryReader` recorded by `new` (the inflater and
the input buffer start out empty and are not modelled). -/
structure ZipEntryReader where
  compression : Nat
  compressedRemaining : Nat
  uncompressedRemaining : Nat
deriving DecidableEq, Repr

/-- Embeds `ZipEntryReader::new(reader, entry)`: seek to the entry
offset, read the 30-byte local file header (`read_exact` reports a
short read as `InvalidData`), check the `50 4B 03 04` signature, skip
the filename and extra fields, and reject compression methods other
than stored (0) and deflate (8). -/
def ZipEntryReader.new (src : Source) (entry : ZipFileEntry) :
    Except ZipError (ZipEntryReader × Source) :=
  if src.data.length < entry.offset + lfhSize then Except.error ZipError.invalidData
  else
    let lfhBytes := (src.data.drop entry.offset).take lfhSize
    if lfhBytes.take 4 ≠ [0x50, 0x4b, 0x03, 0x04] then
      Except.error ZipError.invalidSignature
    else
      let skip := le16 lfhBytes 26 + le16 lfhBytes 28
      let compression := le16 lfhBytes 8
      if compression ≠ 0 ∧ compression ≠ 8 then
        Except.error ZipError.unsupportedCompression
      else
        Except.ok
          ({ compression := compression,
             compressedRemaining := le32 lfhBytes 18,
             uncompressedRemaining := le32 lfhBytes 22 },
           { data := src.data, pos := entry.offset + lfhSize + skip })

end zip

namespace framebuffer

/-- Physical framebuffer width in pixels (`framebuffer::WIDTH`). -/
def WIDTH : Nat := 800

/-- Physical framebuffer height in pixels (`framebuffer::HEIGHT`). -/
def HEIGHT : Nat := 480

/-- Bytes per 1-bit framebuffer (`framebuffer::BUFFER_SIZE`). -/
def BUFFER_SIZE : Nat := WIDTH * HEIGHT / 8

/-- Embeds `framebuffer::Rotation`. -/
inductive Rotation where
  | Rotate0
  | Rotate90
  | Rotate180
  | Rotate270
deriving DecidableEq, Repr

/-- Embeds `Rotation::size`: the rotation-resolved display size as
(width, height). -/
def Rotation.size : Rotation → Nat × Nat
  | Rotation.Rotate0 => (WIDTH, HEIGHT)
  | Rotation.Rotate180 => (WIDTH, HEIGHT)
  | Rotation.Rotate90 => (HEIGHT, WIDTH)
  | Rotation.Rotate270 => (HEIGHT, WIDTH)

/-- Embeds `framebuffer::DisplayBuffers`: the two byte framebuffers are
modelled as functions from byte index to byte value. -/
structure DisplayBuffers where
  fb0 : Nat → Nat
  fb1 : Nat → Nat
  active : Bool
  rotation : Rotation

/-- Embeds `DisplayBuffers::size`. -/
def DisplayBuffers.size (b : DisplayBuffers) : Nat × Nat := b.rotation.size

/-- Embeds `embedded_graphics::BinaryColor` (`On` = true). -/
abbrev BinaryColor := Bool

/-- Byte update of a single framebuffer at `byteIndex`. -/
def updateByte (fb : Nat → Nat) (byteIndex : Nat) (v : Nat) : Nat → Nat :=
  fun i => if i = byteIndex then v else fb i

/-- Write the given byte into the active framebuffer, embedding the
mutation through `get_active_buffer_mut`. -/
def DisplayBuffers.writeActive (b : DisplayBuffers) (byteIndex v : Nat) :
    DisplayBuffers :=
  if b.active then { b with fb1 := updateByte b.fb1 byteIndex v }
  else { b with fb0 := updateByte b.fb0 byteIndex v }

/-- Read the given byte of the active framebuffer. -/
def DisplayBuffers.readActive (b : DisplayBuffers) (byteIndex : Nat) : Nat :=
  if b.active then b.fb1 byteIndex else b.fb0 byteIndex

/-- Embeds `DisplayBuffers::set_pixel(x, y, color)`: bounds check
against the rotation-resolved size, the four rotation permutations,
and the bit set/clear in the active framebuffer. -/
def DisplayBuffers.set_pixel (b : DisplayBuffers) (x y : Int)
    (color : BinaryColor) : DisplayBuffers :=
  let size := b.size
  if x < 0 ∨ y < 0 ∨ x ≥ (size.1 : Int) ∨ y ≥ (size.2 : Int) then b
  else
    let xn := x.toNat
    let yn := y.toNat
    let p : Nat × Nat :=
      match b.rotation with
      | Rotation.Rotate0 => (xn, yn)
      | Rotation.Rotate90 => (yn, HEIGHT - 1 - xn)
      | Rotation.Rotate180 => (WIDTH - 1 - xn, HEIGHT - 1 - yn)
      | Rotation.Rotate270 => (WIDTH - 1 - yn, xn)
    if p.1 < WIDTH ∧ p.2 < HEIGHT then
      let index := p.2 * WIDTH + p.1
      let byteIndex := index / 8
      let bitIndex := 7 - index % 8
      let old := b.readActive byteIndex
      let v :=
        if color then old ||| (1 <<< bitIndex)
        else old &&& (255 ^^^ (1 <<< bitIndex))
      b.writeActive byteIndex v
    else b

end framebuffer

namespace font

/-- Embeds `font::Glyph`: codepoint, bitmap offset, and the packed
metrics blob. -/
structure Glyph where
  codepoint : Nat
  bitmapIndex : Nat
  blob : Nat

/-- Embeds `Glyph::x_advance`. -/
def Glyph.x_advance (g : Glyph) : Nat := (g.blob >>> 26) &&& 63

/-- Embeds `Glyph::width`. -/
def Glyph.width (g : Glyph) : Nat := (g.blob >>> 20) &&& 63

/-- Embeds `Glyph::height`. -/
def Glyph.height (g : Glyph) : Nat := (g.blob >>> 14) &&& 63

/-- Embeds `Glyph::xmin` (stored with a +32 bias). -/
def Glyph.xmin (g : Glyph) : Int := Int.ofNat ((g.blob >>> 8) &&& 63) - 32

/-- Embeds `Glyph::ymin` (stored with a +32 bias). -/
def Glyph.ymin (g : Glyph) : Int := Int.ofNat (g.blob &&& 63) - 32

/-- Embeds `font::Mode`. -/
inductive Mode where
  | Bw
  | Msb
  | Lsb
deriving DecidableEq, Repr

/-- Embeds `font::FontDefinition`: the glyph table plus the three
bitmap planes, each modelled as a function from byte index to byte
value. -/
structure FontDefinition where
  y_advance : Nat
  glyphs : List Glyph
  bitmap_bw : Nat → Nat
  bitmap_msb : Nat → Nat
  bitmap_lsb : Nat → Nat

/-- One step bound for the binary search fuel. -/
def binarySearchGo (glyphs : List Glyph) (codepoint : Nat) :
    Nat → Nat → Nat → Except Nat Nat
  | 0, left, _ => Except.error left
  | fuel + 1, left, right =>
    if left < right then
      let mid := (left + right) / 2
      let c := (glyphs.getD mid { codepoint := 0, bitmapIndex := 0, blob := 0 }).codepoint
      if c < codepoint then binarySearchGo glyphs codepoint fuel (mid + 1) right
      else if c > codepoint then binarySearchGo glyphs codepoint fuel left mid
      else Except.ok mid
    else Except.error left

/-- Embeds `slice::binary_search_by` over the glyph table comparing
codepoints: `Ok(index)` of a match or `Err(insertion_point)`. -/
def binarySearch (glyphs : List Glyph) (codepoint : Nat) : Except Nat Nat :=
  binarySearchGo glyphs codepoint (glyphs.length + 1) 0 glyphs.length

/-- One pixel of the glyph blit loop in `font::draw_glyph`: clip the
rotated target against the display extent, read the glyph bitmap bit,
and set or clear the pixel according to the drawing mode. -/
def drawGlyphPixel (bitmap : Nat → Nat) (g : Glyph) (mode : Mode)
    (size : Nat × Nat) (xOff yOff : Int) (b : framebuffer.DisplayBuffers)
    (xy : Nat × Nat) : framebuffer.DisplayBuffers :=
  let y := xy.1
  let x := xy.2
  let fbX := xOff + (x : Int)
  let fbY := yOff + (y : Int)
  if fbX < 0 ∨ fbX ≥ (size.1 : Int) ∨ fbY < 0 ∨ fbY ≥ (size.2 : Int) then b
  else
    let bitmapIndex := g.bitmapIndex + (y * g.width + x) / 8
    let bitmapBit := 7 - (y * g.width + x) % 8
    let byte := bitmap bitmapIndex
    let pixelOn := (byte >>> bitmapBit) &&& 1
    if mode = Mode.Bw then
      if pixelOn = 0 then b.set_pixel fbX fbY false else b
    else
      if pixelOn ≠ 0 then b.set_pixel fbX fbY true else b

/-- Embeds `font::draw_glyph(font, codepoint, display_buffers,
x_offset, y_offset, mode)`; the returned pair carries the
`Result<u8, usize>` and the (possibly) mutated display buffers. -/
def draw_glyph (font : FontDefinition) (codepoint : Nat)
    (b : framebuffer.DisplayBuffers) (xOffset yOffset : Int) (mode : Mode) :
    Except Nat Nat × framebuffer.DisplayBuffers :=
  match binarySearch font.glyphs codepoint with
  | Except.error e => (Except.error e, b)
  | Except.ok idx =>
    let g := font.glyphs.getD idx { codepoint := 0, bitmapIndex := 0, blob := 0 }
    let bitmap :=
      match mode with
      | Mode.Bw => font.bitmap_bw
      | Mode.Msb => font.bitmap_msb
      | Mode.Lsb => font.bitmap_lsb
    let size := b.size
    if xOffset > (size.1 : Int) ∨ yOffset > (size.2 : Int) then
      (Except.ok g.x_advance, b)
    else
      let xOff := xOffset + g.xmin
      let yOff := yOffset - (g.height : Int) - g.ymin
      let coords := (List.range g.height).flatMap
        (fun y => (List.range g.width).map (fun x => (y, x)))
      let b := coords.foldl (drawGlyphPixel bitmap g mode size xOff yOff) b
      (Except.ok g.x_advance, b)

end font

/-- The opening brace character. -/
def lbrace : Char := Char.ofNat 123

/-- The closing brace character. -/
def rbrace : Char := Char.ofNat 125

/-- Whitespace trim on both ends with the Unicode predicate, embedding
`str::trim`. -/
def trimUni (s : Str) : Str :=
  ((s.dropWhile isUniWS).reverse.dropWhile isUniWS).reverse

/-- Embeds substring search (`memchr::memmem::find` and `str::find` for
string patterns): index of the first occurrence of `needle`. -/
def memFindGo (needle : Str) : Str → Nat → Option Nat
  | [], i => if needle = [] then some i else none
  | c :: rest, i =>
    if needle.isPrefixOf (c :: rest) then some i else memFindGo needle rest (i + 1)

/-- First index at which `needle` occurs in `hay`. -/
def memFind (hay needle : Str) : Option Nat := memFindGo needle hay 0

/-- The slice `buf[r.1 .. r.2]`. -/
def extractRange (buf : Str) (r : Nat × Nat) : Str := (buf.take r.2).drop r.1

namespace css

/-- Embeds `Selector::parse`: a single simple or compound selector;
selectors containing combinators, pseudo-classes or attribute selectors
yield `None`. -/
def Selector.parse (s : Str) : Option Selector :=
  let s := trimUni s
  if s = [] ∨ s.any (fun c =>
      isUniWS c ∨ c = '>' ∨ c = '+' ∨ c = '~' ∨ c = ':' ∨ c = '[') then none
  else
    let commit (st : Option Str × Option Str × List Str) (current : Str)
        (kind : Char) : Option Str × Option Str × List Str :=
      if current = [] then st
      else
        match kind with
        | 'e' => (some current, st.2.1, st.2.2)
        | '.' => (st.1, st.2.1, st.2.2 ++ [current])
        | '#' => (st.1, some current, st.2.2)
        | _ => st
    let step := fun (acc : (Option Str × Option Str × List Str) × Str × Char)
        (ch : Char) =>
      if ch = '.' ∨ ch = '#' then (commit acc.1 acc.2.1 acc.2.2, [], ch)
      else (acc.1, acc.2.1 ++ [ch], acc.2.2)
    let acc := s.foldl step ((none, none, []), [], 'e')
    let st := commit acc.1 acc.2.1 acc.2.2
    if st.1 = none ∧ st.2.1 = none ∧ st.2.2 = [] then none
    else some { element := st.1, id := st.2.1, classes := st.2.2 }

/-- Embeds `Rule::has_any`. -/
def Rule.hasAny (r : Rule) : Bool :=
  r.alignment.isSome || r.italic.isSome || r.bold.isSome || r.indent.isSome

/-- Fueled body of `Stylesheet::filter_comments`; every step consumes
at least one character, so fuel equal to the input length suffices. -/
def filterCommentsGo : Nat → Str → Str
  | 0, _ => []
  | fuel + 1, s =>
    match s with
    | [] => []
    | '/' :: '*' :: rest2 =>
      (match memFind rest2 (String.toList "*/") with
       | none => []
       | some i => filterCommentsGo fuel (rest2.drop (i + 2)))
    | c :: rest => c :: filterCommentsGo fuel rest

/-- Embeds `Stylesheet::filter_comments`: strip `/* ... */` comments,
dropping the rest of the input after an unclosed comment. -/
def filterComments (s : Str) : Str := filterCommentsGo s.length s

/-- Depth-counting scan of `Stylesheet::find_closing_brace`. -/
def fcbGo (openPos : Nat) : Str → Nat → Nat → Option Nat
  | [], _, _ => none
  | b :: rest, i, depth =>
    if b = lbrace then fcbGo openPos rest (i + 1) (depth + 1)
    else if b = rbrace then
      if depth = 1 then some (openPos + 1 + i)
      else fcbGo openPos rest (i + 1) (depth - 1)
    else fcbGo openPos rest (i + 1) depth

/-- Embeds `Stylesheet::find_closing_brace`. -/
def findClosingBrace (sheet : Str) (openPos : Nat) : Option Nat :=
  fcbGo openPos (sheet.drop (openPos + 1)) 0 1

/-- Embeds `Stylesheet::skip_at_rule`. -/
def skipAtRule (sheet : Str) (atPos : Nat) : Option Nat :=
  let rest := sheet.drop atPos
  let semi := rest.findIdx? (fun c => c = ';')
  let brace := rest.findIdx? (fun c => c = lbrace)
  match semi, brace with
  | some s, some b =>
    if s < b then some (atPos + s + 1)
    else (findClosingBrace sheet (atPos + b)).map (fun e => e + 1)
  | none, some b => (findClosingBrace sheet (atPos + b)).map (fun e => e + 1)
  | some s, none => some (atPos + s + 1)
  | none, none => none

/-- The scanning loop of `Stylesheet::extend_from_sheet`, with fuel
bounding the iteration count (each iteration strictly advances `pos`,
so `sheet.length + 1` rounds always suffice). -/
def extendGo : Nat → List (Selector × Rule) → Str → Nat → List (Selector × Rule)
  | 0, acc, _, _ => acc
  | fuel + 1, acc, sheet, pos =>
    if pos < sheet.length then
      let remaining := sheet.drop pos
      match remaining.findIdx? (fun c => c = lbrace ∨ c = '@') with
      | none => acc
      | some bracePos =>
        let actualPos := pos + bracePos
        if sheet.getD actualPos ' ' = '@' then
          match skipAtRule sheet actualPos with
          | some endP => extendGo fuel acc sheet endP
          | none => acc
        else
          match findClosingBrace sheet actualPos with
          | none => acc
          | some endPos =>
            let selectorText := trimUni (extractRange sheet (pos, actualPos))
            let declarations := trimUni (extractRange sheet (actualPos + 1, endPos))
            let acc :=
              if ¬ declarations.contains lbrace then
                let rule := Rule.fromStr declarations
                if Rule.hasAny rule then
                  acc ++ ((splitOnChar ',' selectorText).filterMap Selector.parse).map
                    (fun sel => (sel, rule))
                else acc
              else acc
            extendGo fuel acc sheet (endPos + 1)
    else acc

/-- Embeds `Stylesheet::extend_from_sheet`. -/
def Stylesheet.extendFromSheet (sheet : Stylesheet) (text : Str) : Stylesheet :=
  let t := filterComments text
  { rules := extendGo (t.length + 1) sheet.rules t 0 }

end css

namespace xml

/-- Embeds `embedded_xml::Error` (the payloads of `IoError` and
`Utf8Error` are irrelevant here). -/
inductive XmlError where
  | ioError
  | utf8Error
  | invalidState
  | eof
deriving DecidableEq, Repr

/-- Embeds `embedded_xml::Event`.  Attribute readers are carried as the
raw trimmed attribute block (`AttributeReader::remaining`). -/
inductive Event where
  | processingInstruction (name : Str) (attrs : Str)
  | dtd (content : Str)
  | cdata (data : Str)
  | comment (content : Str)
  | startElement (name : Str) (attrs : Str)
  | text (content : Str)
  | endElement (name : Str)
  | endOfFile
deriving DecidableEq, Repr

/-- The quote characters accepted around attribute values. -/
def isQuote (c : Char) : Bool := c = '"' || c = Char.ofNat 39

/-- Embeds `AttributeReader::from_block`. -/
def attrFromBlock (s : Str) : Str := trimAscii s

/-- Embeds one `AttributeReader::next` step: returns the (name, value)
pair and the rest of the block. -/
def attrNext (remaining : Str) : Option ((Str × Str) × Str) :=
  let s := trimAsciiStart remaining
  if s = [] then none
  else
    match s.findIdx? (fun c => c = '=') with
    | none => none
    | some eqPos =>
      let name := s.take eqPos
      let afterEq := s.drop (eqPos + 1)
      match afterEq.head? with
      | none => none
      | some quote =>
        if isQuote quote then
          let valueStart := afterEq.drop 1
          match valueStart.findIdx? (fun c => c = quote) with
          | none => none
          | some endPos =>
            some ((name, valueStart.take endPos), valueStart.drop (endPos + 1))
        else
          let endPos := (afterEq.findIdx? isAsciiWS).getD afterEq.length
          some ((name, afterEq.take endPos), afterEq.drop endPos)

/-- Iteration of `AttributeReader::get`; the fuel is bounded by the
block length because each yielded attribute consumes at least the
equals sign. -/
def attrGetGo (name : Str) : Nat → Str → Option Str
  | 0, _ => none
  | fuel + 1, remaining =>
    match attrNext remaining with
    | none => none
    | some ((n, v), rest) =>
      if eqIgnoreAsciiCase n name then some v else attrGetGo name fuel rest

/-- Embeds `AttributeReader::get`: case-insensitive lookup by name. -/
def attrGet (block name : Str) : Option Str :=
  attrGetGo name (block.length + 1) (attrFromBlock block)

/-- Embeds `reader::find_span`: position right after the start needle
plus the position of the end needle (if present) after it. -/
def findSpan (buffer ns ne : Str) : Option (Nat × Option Nat) :=
  match memFind buffer ns with
  | none => none
  | some i =>
    let s := i + ns.length
    some (s, (memFind (buffer.drop s) ne).map (fun p => p + s))

/-- Embeds `Reader::name_and_attrs`. -/
def nameAndAttrs (block : Str) : Str × Str :=
  match splitOnceAsciiWS block with
  | some (name, rest) => (name, attrFromBlock rest)
  | none => (block, [])

/-- The event classes of `Reader::next_event`. -/
inductive BlockType where
  | cdata
  | comment
  | dtd
  | pi
  | endElement
  | startElement
deriving DecidableEq, Repr

/-- The event-class dispatch of `Reader::next_event` on the two bytes
after the opening angle bracket, together with the start and end
needles of each class. -/
def blockTypeOf (b1 b2 : Char) : BlockType × String × String :=
  if b1 = '!' ∧ b2 = '[' then (BlockType.cdata, "<![CDATA[", "]]>")
  else if b1 = '!' ∧ b2 = '-' then (BlockType.comment, "<!--", "-->")
  else if b1 = '!' then (BlockType.dtd, "<!", ">")
  else if b1 = '?' then (BlockType.pi, "<?", "?>")
  else if b1 = '/' then (BlockType.endElement, "</", ">")
  else (BlockType.startElement, "<", ">")

/-- Embeds `embedded_xml::Reader` in the configuration the claims
exercise: the construction-time read filled the whole document into the
buffer (`buffer_size ≥ total_size`), so `remaining = 0`, `end` is the
buffer length, and every `advance` fails with `Eof`. -/
structure Reader where
  buf : Str
  pos : Nat
  selfClosing : Option (Nat × Nat)

/-- The valid window `buffer[pos..end]` of the reader. -/
def Reader.window (s : Reader) : Str := s.buf.drop s.pos

/-- Embeds `Reader::next_event`. -/
def next_event (s : Reader) : Except XmlError (Event × Reader) :=
  if s.pos = s.buf.length then Except.ok (Event.endOfFile, s)
  else
    match s.selfClosing with
    | some r =>
      let block := trimAscii (extractRange s.buf r)
      (match (splitAsciiWhitespace block).head? with
       | some name => Except.ok (Event.endElement name, { s with selfClosing := none })
       | none => Except.error XmlError.invalidState)
    | none =>
      match memFind s.window (String.toList "<") with
      | none => Except.ok (Event.endOfFile, s)
      | some currEnd =>
        if trimAscii (s.window.take currEnd) ≠ [] then
          Except.ok (Event.text (s.window.take currEnd),
                     { s with pos := s.pos + currEnd })
        else
          let s1 : Reader := { s with pos := s.pos + currEnd }
          if s1.window.length < 3 then Except.ok (Event.endOfFile, s1)
          else
            let tyne : BlockType × String × String :=
              blockTypeOf (s1.window.getD 1 ' ') (s1.window.getD 2 ' ')
            let ty := tyne.1
            let nStart := tyne.2.1.toList
            let nEnd := tyne.2.2.toList
            match findSpan s1.window nStart nEnd with
            | none => Except.error XmlError.eof
            | some (_, none) => Except.error XmlError.eof
            | some (st, some en) =>
              if ty = BlockType.startElement ∧ s1.window.getD (en - 1) ' ' = '/' then
                let r := (s1.pos + st, s1.pos + en - 1)
                let block := trimAscii (extractRange s1.buf r)
                let na := nameAndAttrs block
                Except.ok (Event.startElement na.1 na.2,
                           { s1 with pos := s1.pos + en + nEnd.length,
                                     selfClosing := some r })
              else
                let r := (s1.pos + st, s1.pos + en)
                let block := trimAscii (extractRange s1.buf r)
                let ev :=
                  match ty with
                  | BlockType.cdata => Event.cdata block
                  | BlockType.comment => Event.comment block
                  | BlockType.dtd => Event.dtd block
                  | BlockType.pi =>
                    let na := nameAndAttrs block
                    Event.processingInstruction na.1 na.2
                  | BlockType.endElement => Event.endElement block
                  | BlockType.startElement =>
                    let na := nameAndAttrs block
                    Event.startElement na.1 na.2
                Except.ok (ev, { s1 with pos := s1.pos + en + nEnd.length,
                                         selfClosing := none })

/-- The reader at the start of a document. -/
def initReader (doc : Str) : Reader :=
  { buf := doc, pos := 0, selfClosing := none }

/-- Pull events until end of file, an error, or fuel exhaustion,
collecting the results in order. -/
def traceEvents : Nat → Reader → List (Except XmlError Event)
  | 0, _ => []
  | fuel + 1, s =>
    match next_event s with
    | Except.error e => [Except.error e]
    | Except.ok (ev, s') =>
      if ev = Event.endOfFile then [Except.ok Event.endOfFile]
      else Except.ok ev :: traceEvents fuel s'

end xml

namespace spine

/-- Models `html_escape::decode_html_entities` for the entity forms the
spec names (named entities and decimal numeric references); the fuel
starts at the input length, which suffices because every step consumes
at least one character. -/
def decodeGo : Nat → Str → Str
  | 0, s => s
  | fuel + 1, s =>
    match s with
    | [] => []
    | '&' :: rest =>
      if (String.toList "amp;").isPrefixOf rest then
        '&' :: decodeGo fuel (rest.drop 4)
      else if (String.toList "quot;").isPrefixOf rest then
        '"' :: decodeGo fuel (rest.drop 5)
      else if (String.toList "lt;").isPrefixOf rest then
        '<' :: decodeGo fuel (rest.drop 3)
      else if (String.toList "gt;").isPrefixOf rest then
        '>' :: decodeGo fuel (rest.drop 3)
      else if rest.head? = some '#' then
        let digits := (rest.drop 1).takeWhile Char.isDigit
        let after := (rest.drop 1).dropWhile Char.isDigit
        if digits ≠ [] ∧ after.head? = some ';' then
          Char.ofNat (digits.foldl (fun a c => a * 10 + (c.toNat - 48)) 0) ::
            decodeGo fuel (after.drop 1)
        else '&' :: decodeGo fuel rest
      else '&' :: decodeGo fuel rest
    | c :: rest => c :: decodeGo fuel rest

/-- Entity decoding applied to one word. -/
def decodeHtmlEntities (s : Str) : Str := decodeGo s.length s

/-- Embeds `spine::BodyParser`. -/
structure BodyParser where
  paragraphs : List Paragraph
  runs : List layout.Run
  alignment : Option layout.Alignment
  indent : Option Nat
  currentRun : Str
  bold : Bool
  italic : Bool
  depth : Nat
  hasTrailingSpace : Bool
  italicDepth : Option Nat
  boldDepth : Option Nat

/-- Embeds `BodyParser::new`. -/
def BodyParser.new : BodyParser :=
  { paragraphs := [], runs := [], alignment := none, indent := none,
    currentRun := [], bold := false, italic := false, depth := 0,
    hasTrailingSpace := false, italicDepth := none, boldDepth := none }

/-- Embeds `BodyParser::style`. -/
def BodyParser.style (bp : BodyParser) : font.FontStyle :=
  match bp.bold, bp.italic with
  | false, false => font.FontStyle.Regular
  | true, false => font.FontStyle.Bold
  | false, true => font.FontStyle.Italic
  | true, true => font.FontStyle.BoldItalic

/-- Embeds `BodyParser::flush_text`. -/
def BodyParser.flushText (bp : BodyParser) (breaking : Bool) : BodyParser :=
  if bp.currentRun ≠ [] then
    { bp with
      currentRun := [],
      runs := bp.runs ++
        [{ text := bp.currentRun, style := bp.style, breaking := breaking }] }
  else bp

/-- Embeds `BodyParser::set_bold`. -/
def BodyParser.setBold (bp : BodyParser) (bold : Bool) : BodyParser :=
  if bp.bold ≠ bold then { (bp.flushText false) with bold := bold } else bp

/-- Embeds `BodyParser::set_italic`. -/
def BodyParser.setItalic (bp : BodyParser) (italic : Bool) : BodyParser :=
  if bp.italic ≠ italic then { (bp.flushText false) with italic := italic } else bp

/-- Embeds `BodyParser::break_line`. -/
def BodyParser.breakLine (bp : BodyParser) : BodyParser := bp.flushText true

/-- Embeds `BodyParser::flush_run`: flush the pending text, trim the
last run's trailing whitespace, and emit the paragraph. -/
def BodyParser.flushRun (bp : BodyParser) : BodyParser :=
  let bp := bp.flushText false
  if bp.runs ≠ [] then
    let runs :=
      match bp.runs.getLast? with
      | some last => bp.runs.dropLast ++ [{ last with text := trimAsciiEnd last.text }]
      | none => bp.runs
    { bp with
      runs := [],
      paragraphs := bp.paragraphs ++
        [{ runs := runs, indent := bp.indent, alignment := bp.alignment }],
      indent := none,
      alignment := none }
  else bp

/-- Embeds `BodyParser::into_paragraphs`. -/
def BodyParser.intoParagraphs (bp : BodyParser) : List Paragraph :=
  bp.flushRun.paragraphs

/-- Embeds `BodyParser::push_text`: HTML-style whitespace collapsing
with entity decoding per word. -/
def BodyParser.pushText (bp : BodyParser) (t0 : Str) : BodyParser :=
  let t := if bp.runs = [] ∧ bp.currentRun = [] then trimAsciiStart t0 else t0
  let cr :=
    if ¬ bp.hasTrailingSpace ∧ (t.head?.map isUniWS).getD false then
      bp.currentRun ++ [' ']
    else bp.currentRun
  let hts := (t.getLast?.map isUniWS).getD false
  let folded := (splitWhitespace t).foldl
    (fun acc word => (if acc = [] then acc else acc ++ [' ']) ++ decodeHtmlEntities word)
    []
  let cr := cr ++ folded
  let cr := if hts then cr ++ [' '] else cr
  { bp with currentRun := cr, hasTrailingSpace := hts }

/-- Embeds `BodyParser::increase_depth`. -/
def BodyParser.increaseDepth (bp : BodyParser) : BodyParser :=
  { bp with depth := bp.depth + 1 }

/-- Embeds `BodyParser::decrease_depth`. -/
def BodyParser.decreaseDepth (bp : BodyParser) : BodyParser :=
  let bp := if bp.depth > 0 then { bp with depth := bp.depth - 1 } else bp
  let bp :=
    match bp.italicDepth with
    | some d => if bp.depth < d then { (bp.setItalic false) with italicDepth := none } else bp
    | none => bp
  match bp.boldDepth with
  | some d => if bp.depth < d then { (bp.setBold false) with boldDepth := none } else bp
  | none => bp

/-- Embeds `parse_body::is_block_element`. -/
def isBlockElement (name : Str) : Bool :=
  [String.toList "h1", String.toList "h2", String.toList "h3",
   String.toList "h4", String.toList "h5", String.toList "h6",
   String.toList "p", String.toList "li"].contains name

/-- Embeds `parse_body::is_italic`. -/
def isItalicTag (name : Str) : Bool :=
  [String.toList "i", String.toList "em"].contains name

/-- Embeds `parse_body::is_bold`. -/
def isBoldTag (name : Str) : Bool :=
  [String.toList "h1", String.toList "h2", String.toList "h3",
   String.toList "h4", String.toList "h5", String.toList "h6",
   String.toList "b"].contains name

/-- Embeds `parse_body::is_breaking`. -/
def isBreakingTag (name : Str) : Bool :=
  [String.toList "br", String.toList "tr"].contains name

/-- Embeds the `StartElement` arm of the `parse_body` loop. -/
def handleStart (inlineSheet : css.Stylesheet) (externSheet : Option css.Stylesheet)
    (bp : BodyParser) (name attrs : Str) : BodyParser :=
  let bp := if isBlockElement name then bp.flushRun else bp
  let bp := bp.increaseDepth
  let id := xml.attrGet attrs (String.toList "id")
  let class? := xml.attrGet attrs (String.toList "class")
  let inlineStyle :=
    match xml.attrGet attrs (String.toList "style") with
    | some s => css.Rule.fromStr s
    | none => css.Rule.default
  let style := inlineStyle + inlineSheet.get name id class? +
    (match externSheet with
     | some sh => sh.get name id class?
     | none => css.Rule.default)
  let bp :=
    if isBoldTag name then bp.setBold true
    else if isItalicTag name then bp.setItalic true
    else if isBreakingTag name then bp.breakLine
    else bp
  let bp :=
    match style.italic with
    | some it => { (bp.setItalic it) with italicDepth := some bp.depth }
    | none => bp
  let bp :=
    match style.bold with
    | some bo => { (bp.setBold bo) with boldDepth := some bp.depth }
    | none => bp
  let bp :=
    match style.alignment with
    | some a => { bp with alignment := some a }
    | none => bp
  match style.indent with
  | some i => { bp with indent := some i }
  | none => bp

/-- Embeds the `EndElement` arm of the `parse_body` loop. -/
def handleEnd (bp : BodyParser) (name : Str) : BodyParser :=
  let bp := if isBlockElement name then bp.flushRun else bp
  let bp :=
    if bp.boldDepth = none ∧ isBoldTag name then bp.setBold false
    else if bp.italicDepth = none ∧ isItalicTag name then bp.setItalic false
    else bp
  bp.decreaseDepth

/-- Embeds the event loop of `spine::parse_body`, driving the XML
reader until the closing `body` tag or end of file; `none` means the
fuel ran out. -/
def parseBodyLoop (inlineSheet : css.Stylesheet)
    (externSheet : Option css.Stylesheet) :
    Nat → xml.Reader → BodyParser →
    Option (Except xml.XmlError (List Paragraph))
  | 0, _, _ => none
  | fuel + 1, r, bp =>
    match xml.next_event r with
    | Except.error e => some (Except.error e)
    | Except.ok (ev, r') =>
      match ev with
      | xml.Event.endElement name =>
        if name = String.toList "body" then some (Except.ok bp.intoParagraphs)
        else parseBodyLoop inlineSheet externSheet fuel r' (handleEnd bp name)
      | xml.Event.startElement name attrs =>
        parseBodyLoop inlineSheet externSheet fuel r'
          (handleStart inlineSheet externSheet bp name attrs)
      | xml.Event.text content =>
        parseBodyLoop inlineSheet externSheet fuel r' (bp.pushText content)
      | xml.Event.endOfFile => some (Except.ok bp.intoParagraphs)
      | _ => parseBodyLoop inlineSheet externSheet fuel r' bp

/-- Embeds the event loop of `spine::parse_head`, collecting the inline
stylesheet from `style type="text/css"` blocks. -/
def parseHeadLoop :
    Nat → xml.Reader → css.Stylesheet →
    Option (Except xml.XmlError (css.Stylesheet × xml.Reader))
  | 0, _, _ => none
  | fuel + 1, r, sheet =>
    match xml.next_event r with
    | Except.error e => some (Except.error e)
    | Except.ok (ev, r') =>
      match ev with
      | xml.Event.endElement name =>
        if name = String.toList "head" then some (Except.ok (sheet, r'))
        else parseHeadLoop fuel r' sheet
      | xml.Event.startElement name attrs =>
        if name = String.toList "style" ∧
            xml.attrGet attrs (String.toList "type") =
              some (String.toList "text/css") then
          match xml.next_event r' with
          | Except.error e => some (Except.error e)
          | Except.ok (ev2, r2) =>
            match ev2 with
            | xml.Event.text content =>
              parseHeadLoop fuel r2 (sheet.extendFromSheet content)
            | _ => parseHeadLoop fuel r2 sheet
        else parseHeadLoop fuel r' sheet
      | xml.Event.endOfFile => some (Except.ok (sheet, r'))
      | _ => parseHeadLoop fuel r' sheet

/-- Embeds the top-level loop of `spine::parse`: wait for `head` and
`body`, returning the chapter once the body is parsed (or an empty
chapter at end of file). -/
def parseTop (title : Option Str) (externSheet : Option css.Stylesheet) :
    Nat → xml.Reader → css.Stylesheet →
    Option (Except xml.XmlError Chapter)
  | 0, _, _ => none
  | fuel + 1, r, inlineSheet =>
    match xml.next_event r with
    | Except.error e => some (Except.error e)
    | Except.ok (ev, r') =>
      match ev with
      | xml.Event.startElement name _ =>
        if name = String.toList "head" then
          match parseHeadLoop fuel r' css.Stylesheet.new with
          | none => none
          | some (Except.error e) => some (Except.error e)
          | some (Except.ok (sheet, r2)) => parseTop title externSheet fuel r2 sheet
        else if name = String.toList "body" then
          match parseBodyLoop inlineSheet externSheet fuel r' BodyParser.new with
          | none => none
          | some (Except.error e) => some (Except.error e)
          | some (Except.ok paras) =>
            some (Except.ok { title := title, paragraphs := paras })
        else parseTop title externSheet fuel r' inlineSheet
      | xml.Event.endOfFile =>
        some (Except.ok { title := title, paragraphs := [] })
      | _ => parseTop title externSheet fuel r' inlineSheet

/-- Embeds `spine::parse(title, reader, size, extern_stylesheet)` for a
document held entirely in the reader window. -/
def parse (title : Option Str) (doc : Str)
    (externSheet : Option css.Stylesheet) (fuel : Nat) :
    Option (Except xml.XmlError Chapter) :=
  parseTop title externSheet fuel (xml.initReader doc) css.Stylesheet.new

end spine

/-! Concrete inputs for the claim scenarios. -/

/-- The C1 stylesheet source: a class rule setting bold, then a
compound element-class-id rule clearing it. -/
def c1SheetText : Str :=
  String.toList ".c \x7b font-weight: bold; \x7d p.c#x \x7b font-weight: normal; \x7d"

/-- The C1 stylesheet parsed through `extend_from_sheet`. -/
def c1Sheet : css.Stylesheet :=
  css.Stylesheet.extendFromSheet css.Stylesheet.new c1SheetText

/-- A one-paragraph chapter. -/
def c2Chapter : Chapter :=
  { title := none,
    paragraphs := [{ runs := [], alignment := none, indent := none }] }

/-- A one-chapter book whose chapter lookup is irrelevant. -/
def c2Book : Book := { count := 1, chapterAt := fun _ => none }

/-- Freshly opened reader state: page start and end both `(0, 0)`,
exactly as `Page::default()` initialises them. -/
def c2State : reader.ReaderState :=
  { book := some c2Book, chapterIdx := 0, chapter := some c2Chapter,
    progress := { start := { paragraph := 0, line := 0 },
                  stop := { paragraph := 0, line := 0 } } }

/-- The C3 scenario document. -/
def c3Doc : Str :=
  String.toList "<root><self-closing /><self-closing/></root>"

/-- The event sequence the C3 scenario expects. -/
def c3Events : List (Except xml.XmlError xml.Event) :=
  [Except.ok (xml.Event.startElement (String.toList "root") []),
   Except.ok (xml.Event.startElement (String.toList "self-closing") []),
   Except.ok (xml.Event.endElement (String.toList "self-closing")),
   Except.ok (xml.Event.startElement (String.toList "self-closing") []),
   Except.ok (xml.Event.endElement (String.toList "self-closing")),
   Except.ok (xml.Event.endElement (String.toList "root")),
   Except.ok xml.Event.endOfFile]

/-- A document that ends immediately after a self-closing tag. -/
def c3CounterDoc : Str := String.toList "<a/>"

/-- Four words placed at 0, 10, 20 and 30 for the justification
scenario. -/
def c5Words : List layout.Text :=
  [{ text := [], x := 0, style := font.FontStyle.Regular },
   { text := [], x := 10, style := font.FontStyle.Regular },
   { text := [], x := 20, style := font.FontStyle.Regular },
   { text := [], x := 30, style := font.FontStyle.Regular }]

/-- The same words after distributing 7 leftover pixels over 3 gaps:
cumulative shifts +3, +5, +7. -/
def c5Expected : List layout.Text :=
  [{ text := [], x := 0, style := font.FontStyle.Regular },
   { text := [], x := 13, style := font.FontStyle.Regular },
   { text := [], x := 25, style := font.FontStyle.Regular },
   { text := [], x := 37, style := font.FontStyle.Regular }]

/-- The C9 scenario document. -/
def c9Doc : Str :=
  String.toList
    "<body><p> Text with <span> White </span> space<span> before</span> and <span>after</span>Spans</p></body>"

/-- The single run the C9 scenario expects. -/
def c9Run : layout.Run :=
  { text := String.toList "Text with White space before and afterSpans",
    style := font.FontStyle.Regular, breaking := false }

/-- A 30-byte local file header: valid signature, deflate compression,
compressed size 3, uncompressed size 5, no filename or extra field. -/
def c7Header : List Nat :=
  [0x50, 0x4b, 0x03, 0x04, 0, 0, 0, 0, 8, 0, 0, 0, 0, 0, 0, 0, 0, 0,
   3, 0, 0, 0, 5, 0, 0, 0, 0, 0, 0, 0]

/-- The same header with a corrupted signature byte. -/
def c7BadSig : List Nat :=
  [0x50, 0x4b, 0x05, 0x06, 0, 0, 0, 0, 8, 0, 0, 0, 0, 0, 0, 0, 0, 0,
   3, 0, 0, 0, 5, 0, 0, 0, 0, 0, 0, 0]

/-- The valid header with an unsupported compression method (1). -/
def c7BadComp : List Nat :=
  [0x50, 0x4b, 0x03, 0x04, 0, 0, 0, 0, 1, 0, 0, 0, 0, 0, 0, 0, 0, 0,
   3, 0, 0, 0, 5, 0, 0, 0, 0, 0, 0, 0]

/-- A zip entry at offset 0. -/
def c7Entry : zip.ZipFileEntry := { size := 5, offset := 0 }

/-- A two-paragraph chapter for the C2 witness. -/
def c2WitnessChapter : Chapter :=
  { title := none,
    paragraphs := [{ runs := [], alignment := none, indent := none },
                   { runs := [], alignment := none, indent := none }] }

/-- A reader state whose page end lies one line past its start. -/
def c2WitnessState : reader.ReaderState :=
  { book := none, chapterIdx := 0, chapter := some c2WitnessChapter,
    progress := { start := { paragraph := 0, line := 0 },
                  stop := { paragraph := 0, line := 1 } } }

/-- A rule with alignment and indent set. -/
def c6A : css.Rule :=
  { alignment := some layout.Alignment.Start, italic := none,
    bold := none, indent := some 3 }

/-- A rule with alignment, italic and bold set. -/
def c6B : css.Rule :=
  { alignment := some layout.Alignment.End, italic := some true,
    bold := some false, indent := none }

/-- Relation between display-buffer states recorded by every pixel
write: the active flag and rotation are unchanged, the inactive
framebuffer is untouched, and no byte at or beyond `BUFFER_SIZE` in
either framebuffer changes. -/
def pixelFrame (b b' : framebuffer.DisplayBuffers) : Prop :=
  b'.active = b.active ∧ b'.rotation = b.rotation ∧
  (b.active = true → ∀ i, b'.fb0 i = b.fb0 i) ∧
  (b.active = false → ∀ i, b'.fb1 i = b.fb1 i) ∧
  (∀ i, framebuffer.BUFFER_SIZE ≤ i → b'.fb0 i = b.fb0 i ∧ b'.fb1 i = b.fb1 i)

/-- Bound on the placed words of a line under construction: every word
ends at or before `bound`. -/
def goodUpTo (o : layout.Options) (bound : Nat) (ws : List layout.Text) : Prop :=
  ∀ t ∈ ws, t.x + layout.wordWidthN (o.font t.style) t.text ≤ bound

/-- All finished lines respect the layout width. -/
def goodLines (o : layout.Options) (ls : List layout.Line) : Prop :=
  ∀ l ∈ ls, goodUpTo o o.width l.words

/-- Invariant of the `layout_textN` loop state: finished lines respect
the width, the current line's words end at or before the running `x`,
and `x` itself stays within the width while the current line is
nonempty. -/
def LInv (o : layout.Options) (st : layout.LState) : Prop :=
  goodLines o st.lines ∧
  goodUpTo o st.x st.cur.words ∧
  (st.cur.words ≠ [] → st.x ≤ o.width)

/-- Concrete layout options for exercising `layout_text`: every glyph
advances 10 pixels, hyphenation keeps words whole. -/
def c4Opts : layout.Options :=
  { width := 100, spaceWidth := 5, dashWidth := 5,
    font := fun _ _ => 10, hyph := fun w => [w] }

/-- A run of five two-character words; the fifth forces a line wrap. -/
def c4Runs : List layout.Run :=
  [{ text := "aa bb cc dd ee".toList, style := font.FontStyle.Regular,
     breaking := false }]

/-- Layout options near the top of the `u16` range: 3500-pixel glyph
advances make ten-character words 35000 pixels wide, under a
60000-pixel line. -/
def c4OverOpts : layout.Options :=
  { width := 60000, spaceWidth := 5, dashWidth := 5,
    font := fun _ _ => 3500, hyph := fun w => [w] }

/-- Two ten-character words of width 35000 each; the wrap-guard sum for
the second word, 35000 + 5 + 35000 = 70005, wraps to 4469 modulo
2^16. -/
def c4OverRuns : List layout.Run :=
  [{ text := "aaaaaaaaaa bbbbbbbbbb".toList, style := font.FontStyle.Regular,
     breaking := false }]

/-! Theorems. -/

/-- Unfolding lemma for the `Add` instance on rules. -/
theorem rule_add_def (a b : css.Rule) : a + b = css.Rule.add a b := rfl

/-- CLAIM C6: `Rule::default()` is a two-sided identity for `+`, and
composition is left-biased field by field: a field that is `Some` in the
left operand is preserved, and otherwise the right operand's field is
taken. -/
theorem C6_rule_add_identity_and_left_bias :
    (∀ r : css.Rule, css.Rule.default + r = r ∧ r + css.Rule.default = r) ∧
    (∀ r1 r2 : css.Rule,
      (∀ a, r1.alignment = some a → (r1 + r2).alignment = some a) ∧
      (r1.alignment = none → (r1 + r2).alignment = r2.alignment) ∧
      (∀ v, r1.italic = some v → (r1 + r2).italic = some v) ∧
      (r1.italic = none → (r1 + r2).italic = r2.italic) ∧
      (∀ v, r1.bold = some v → (r1 + r2).bold = some v) ∧
      (r1.bold = none → (r1 + r2).bold = r2.bold) ∧
      (∀ v, r1.indent = some v → (r1 + r2).indent = some v) ∧
      (r1.indent = none → (r1 + r2).indent = r2.indent)) := by
  constructor
  · intro r
    cases r with
    | mk al it bo ind =>
      constructor
      · rfl
      · simp only [rule_add_def, css.Rule.add, css.Rule.default]
        cases al <;> cases it <;> cases bo <;> cases ind <;> rfl
  · intro r1 r2
    refine ⟨fun a h => ?_, fun h => ?_, fun v h => ?_, fun h => ?_,
            fun v h => ?_, fun h => ?_, fun v h => ?_, fun h => ?_⟩ <;>
      simp only [rule_add_def, css.Rule.add] <;> rw [h] <;> rfl

/-- Witness for C6 at concrete rules: a left-set alignment survives
composition and a left-unset bold falls through to the right. -/
theorem C6_witness :
    (c6A + c6B).alignment = some layout.Alignment.Start ∧
    (c6A + c6B).bold = some false := by
  constructor
  · exact (C6_rule_add_identity_and_left_bias.2 c6A c6B).1 layout.Alignment.Start rfl
  · exact (C6_rule_add_identity_and_left_bias.2 c6A c6B).2.2.2.2.2.1 rfl

/-- CLAIM C1 (code bug): on the stylesheet `.c [font-weight: bold]`
then `p.c#x [font-weight: normal]`, the call
`get("p", Some("x"), Some("c"))` returns `bold = Some(true)`, not the
`Some(false)` that CSS specificity (and the comment inside
`Stylesheet::get`) requires: the matches are sorted ascending and
folded with the accumulator on the left of the left-biased `+`, so the
lowest-specificity rule wins. -/
theorem C1_cascade_lowest_specificity_wins :
    c1Sheet.rules =
      [({ element := none, id := none, classes := [String.toList "c"] },
        { alignment := none, italic := none, bold := some true, indent := none }),
       ({ element := some (String.toList "p"), id := some (String.toList "x"),
          classes := [String.toList "c"] },
        { alignment := none, italic := none, bold := some false, indent := none })] ∧
    (css.Stylesheet.get c1Sheet (String.toList "p") (some (String.toList "x"))
      (some (String.toList "c"))).bold = some true := by
  constructor
  · decide
  · decide

/-- CLAIM C7: opening a ZIP entry fails with `InvalidSignature` when
the bytes at the entry offset do not start with `50 4B 03 04`, fails
with `UnsupportedCompression` when the signature is valid but the
method is neither 0 nor 8, and otherwise succeeds recording the
header's compressed and uncompressed sizes. -/
theorem C7_zip_entry_open (src : zip.Source) (entry : zip.ZipFileEntry)
    (hlen : entry.offset + zip.lfhSize ≤ src.data.length) :
    (((src.data.drop entry.offset).take zip.lfhSize).take 4 ≠
        [0x50, 0x4b, 0x03, 0x04] →
      zip.ZipEntryReader.new src entry =
        Except.error zip.ZipError.invalidSignature) ∧
    (((src.data.drop entry.offset).take zip.lfhSize).take 4 =
        [0x50, 0x4b, 0x03, 0x04] →
      ¬ (zip.le16 ((src.data.drop entry.offset).take zip.lfhSize) 8 = 0 ∨
         zip.le16 ((src.data.drop entry.offset).take zip.lfhSize) 8 = 8) →
      zip.ZipEntryReader.new src entry =
        Except.error zip.ZipError.unsupportedCompression) ∧
    (((src.data.drop entry.offset).take zip.lfhSize).take 4 =
        [0x50, 0x4b, 0x03, 0x04] →
      (zip.le16 ((src.data.drop entry.offset).take zip.lfhSize) 8 = 0 ∨
       zip.le16 ((src.data.drop entry.offset).take zip.lfhSize) 8 = 8) →
      ∃ s',
        zip.ZipEntryReader.new src entry =
          Except.ok
            ({ compression :=
                 zip.le16 ((src.data.drop entry.offset).take zip.lfhSize) 8,
               compressedRemaining :=
                 zip.le32 ((src.data.drop entry.offset).take zip.lfhSize) 18,
               uncompressedRemaining :=
                 zip.le32 ((src.data.drop entry.offset).take zip.lfhSize) 22 },
             s')) := by
  unfold zip.ZipEntryReader.new
  rw [if_neg (by omega)]
  refine ⟨?_, ?_, ?_⟩
  · intro hsig
    rw [if_pos hsig]
  · intro hsig hcomp
    rw [if_neg (by simp [hsig])]
    rw [if_pos (by constructor <;> intro h <;> exact hcomp (by omega))]
  · intro hsig hcomp
    rw [if_neg (by simp [hsig])]
    rw [if_neg (by rintro ⟨h0, h8⟩; rcases hcomp with h | h <;> omega)]
    exact ⟨_, rfl⟩

/-- Witness for C7: the three cases at concrete 30-byte headers (bad
signature, unsupported method 1, and deflate). -/
theorem C7_witness :
    zip.ZipEntryReader.new { data := c7BadSig, pos := 0 } c7Entry =
      Except.error zip.ZipError.invalidSignature ∧
    zip.ZipEntryReader.new { data := c7BadComp, pos := 0 } c7Entry =
      Except.error zip.ZipError.unsupportedCompression ∧
    ∃ s',
      zip.ZipEntryReader.new { data := c7Header, pos := 0 } c7Entry =
        Except.ok ({ compression := 8, compressedRemaining := 3,
                     uncompressedRemaining := 5 }, s') := by
  refine ⟨?_, ?_, ?_⟩
  · exact (C7_zip_entry_open { data := c7BadSig, pos := 0 } c7Entry (by decide)).1
      (by decide)
  · exact (C7_zip_entry_open { data := c7BadComp, pos := 0 } c7Entry (by decide)).2.1
      (by decide) (by decide)
  · exact (C7_zip_entry_open { data := c7Header, pos := 0 } c7Entry (by decide)).2.2
      (by decide) (by decide)

/-- CLAIM C2 (amended): with a chapter loaded, if the page end is not
past the chapter's last paragraph then `next_page` sets the new page
start to the old page end; otherwise, when a following chapter exists,
it is opened with the start at `(0, 0)`.  Hence `next_page` strictly
advances the start in lexicographic order whenever the old page end is
lexicographically greater than the old start. -/
theorem C2_next_page_advances (st : reader.ReaderState) (ch : Chapter)
    (hch : st.chapter = some ch) :
    (st.progress.stop.paragraph < ch.paragraphs.length →
      reader.next_page st =
        { st with progress := { st.progress with start := st.progress.stop } }) ∧
    (ch.paragraphs.length ≤ st.progress.stop.paragraph →
      ∀ b, st.book = some b → st.chapterIdx + 1 < b.count →
        reader.next_page st =
          { st with
            chapterIdx := st.chapterIdx + 1,
            chapter := b.chapterAt (st.chapterIdx + 1),
            progress := { st.progress with
                          start := { paragraph := 0, line := 0 } } }) ∧
    (st.progress.stop.paragraph < ch.paragraphs.length →
      reader.progLt st.progress.start st.progress.stop →
      reader.progLt st.progress.start (reader.next_page st).progress.start) := by
  refine ⟨?_, ?_, ?_⟩
  · intro hlt
    unfold reader.next_page
    rw [hch]
    simp only [ge_iff_le, not_le]
    rw [if_pos (by omega)]
  · intro hge b hb hcount
    unfold reader.next_page
    rw [hch]
    simp only [ge_iff_le, not_le]
    rw [if_neg (by omega)]
    unfold reader.next_chapter
    rw [hb]
    simp only [ge_iff_le]
    rw [if_neg (by omega)]
  · intro hlt hprog
    unfold reader.next_page
    rw [hch]
    simp only [ge_iff_le, not_le]
    rw [if_pos (by omega)]
    exact hprog

/-- Witness for C2 at a concrete state: a chapter of two paragraphs
with the page end one line past the start. -/
theorem C2_witness :
    reader.progLt c2WitnessState.progress.start
      (reader.next_page c2WitnessState).progress.start :=
  (C2_next_page_advances c2WitnessState c2WitnessChapter rfl).2.2
    (by decide) (by decide)

/-- Counterexample to C2 as stated: in the freshly opened state the
page end equals the page start `(0, 0)`, which is not past the
one-paragraph chapter's last paragraph, yet `next_page` leaves the
start unchanged, so `Progress` does not strictly advance even though
the cursor is not at the chapter end. -/
theorem C2_counterexample :
    (reader.next_page c2State).progress.start = { paragraph := 0, line := 0 } ∧
    c2State.progress.start = { paragraph := 0, line := 0 } ∧
    (c2State.chapter.map (fun ch => ch.paragraphs.length)) = some 1 ∧
    c2State.progress.stop.paragraph < 1 ∧
    ¬ reader.progLt c2State.progress.start
        (reader.next_page c2State).progress.start := by
  refine ⟨rfl, rfl, rfl, by decide, ?_⟩
  intro h
  rcases h with h | ⟨_, h⟩
  · exact absurd h (by decide)
  · exact absurd h (by decide)

/-- CLAIM C9: parsing the chapter whose body is the given paragraph
produces exactly one paragraph holding exactly one regular run with the
text `Text with White space before and afterSpans`: leading whitespace
is dropped at the paragraph start, whitespace runs (also across
adjacent text nodes) collapse to one space, and trailing whitespace is
trimmed at flush. -/
theorem C9_whitespace_collapsing :
    spine.parse none c9Doc none 64 =
      some (Except.ok
        { title := none,
          paragraphs := [{ runs := [c9Run], alignment := none, indent := none }] }) := by
  rfl


/-- Element-wise description of the justification loop: word `j` of the
tail receives the accumulated base increments plus one extra pixel for
each remaining-pixel gap seen so far. -/
theorem justifyGo_get (space : Nat) (ws : List layout.Text) :
    ∀ (rem offset j : Nat), j < ws.length →
    (layout.justifyGo space rem offset ws).get? j =
      (ws.get? j).map
        (fun w => { w with x := w.x + offset + min (j + 1) rem + (j + 1) * space }) := by
  induction ws with
  | nil => intro rem offset j h; simp at h
  | cons w ws ih =>
    intro rem offset j h
    cases j with
    | zero =>
      by_cases hr : rem > 0 <;>
        simp only [layout.justifyGo, List.get?, hr, if_true, if_false, reduceIte,
          Option.map_some', Option.some.injEq, layout.Text.mk.injEq,
          eq_self_iff_true, true_and, and_true, Nat.succ_mul, Nat.zero_mul] <;>
        omega
    | succ j =>
      have hj : j < ws.length := by simpa using h
      simp only [layout.justifyGo, List.get?]
      rw [ih _ _ j hj]
      cases hws : ws.get? j with
      | none => simp
      | some w' =>
        by_cases hr : rem > 0 <;>
          simp only [hr, if_true, if_false, reduceIte, Option.map_some',
            Option.some.injEq, layout.Text.mk.injEq, eq_self_iff_true,
            true_and, and_true, Nat.succ_mul, Nat.zero_mul] <;>
          omega

/-- CLAIM C5: justification gives every gap the base increment
`space / gap_count` and one extra pixel to the first
`space mod gap_count` gaps counted from the left, so word `k` of the
line is shifted right by `k * (space / gap_count) + min k (space mod
gap_count)`; concretely, 7 leftover pixels over 3 gaps shift words
2, 3 and 4 by +3, +5 and +7 (per-gap increments 3, 2, 2). -/
theorem C5_justify_distribution :
    (∀ (room : Nat) (ws : List layout.Text) (k : Nat),
       2 ≤ ws.length → 1 ≤ k → k < ws.length →
       (layout.justify room ws).get? 0 = ws.get? 0 ∧
       (layout.justify room ws).get? k =
         (ws.get? k).map
           (fun w => { w with
             x := w.x + k * (room / (ws.length - 1)) +
               min k (room % (ws.length - 1)) })) ∧
    layout.justify 7 c5Words = c5Expected := by
  constructor
  · intro room ws k hlen hk1 hk2
    match ws, hlen with
    | w :: w2 :: ws', _ =>
      have hwhite : (w :: w2 :: ws').length - 1 ≠ 0 := by
        simp only [List.length_cons]
        omega
      constructor
      · simp only [layout.justify, hwhite, if_neg, reduceIte, List.get?]
      · match k, hk1 with
        | j + 1, _ =>
          have hj : j < (w2 :: ws').length := by
            simp only [List.length_cons] at hk2 ⊢
            omega
          simp only [layout.justify, hwhite, if_neg, reduceIte, List.get?]
          rw [justifyGo_get _ _ _ _ j hj]
          cases hws : (w2 :: ws').get? j with
          | none => simp
          | some w' =>
            simp only [Option.map_some', Option.some.injEq, layout.Text.mk.injEq,
              eq_self_iff_true, true_and, and_true]
            omega
  · decide

/-- Witness for C5: the general distribution applied to the concrete
four-word line with 7 leftover pixels. -/
theorem C5_witness :
    (layout.justify 7 c5Words).get? 0 = c5Words.get? 0 ∧
    (layout.justify 7 c5Words).get? 3 =
      (c5Words.get? 3).map
        (fun w => { w with
          x := w.x + 3 * (7 / (c5Words.length - 1)) +
            min 3 (7 % (c5Words.length - 1)) }) :=
  C5_justify_distribution.1 7 c5Words 3 (by decide) (by decide) (by decide)

/-- If no element satisfies `p`, `takeWhile` of the negation keeps the
whole list. -/
theorem findIdx_none_takeWhile (p : Char → Bool) :
    ∀ l : Str, l.findIdx? p = none → l.takeWhile (fun d => !(p d)) = l := by
  intro l
  induction l with
  | nil => intro _; rfl
  | cons x xs ih =>
    intro h
    rw [List.findIdx?_cons, List.findIdx?_succ] at h
    by_cases hx : p x
    · simp [hx] at h
    · simp only [hx, Bool.false_eq_true, if_false, Option.map_eq_none'] at h
      simp [List.takeWhile_cons, hx, ih h]

/-- The first index satisfying `p` bounds the maximal prefix of
elements refuting `p`. -/
theorem findIdx_some_takeWhile (p : Char → Bool) :
    ∀ (l : Str) (i : Nat), l.findIdx? p = some i →
      l.takeWhile (fun d => !(p d)) = l.take i := by
  intro l
  induction l with
  | nil => intro i h; simp [List.findIdx?_nil] at h
  | cons x xs ih =>
    intro i h
    rw [List.findIdx?_cons, List.findIdx?_succ] at h
    by_cases hx : p x
    · simp only [hx, if_true, Option.some.injEq] at h
      subst h
      simp [List.takeWhile_cons, hx]
    · simp only [hx, Bool.false_eq_true, if_false] at h
      cases hxs : xs.findIdx? p with
      | none => rw [hxs] at h; simp at h
      | some j =>
        rw [hxs] at h
        simp only [Option.map_some', Option.some.injEq] at h
        subst h
        simp [List.takeWhile_cons, hx, ih j hxs]

/-- The head of `trim_ascii_start` output is never ASCII whitespace. -/
theorem trimAsciiStart_head (s : Str) :
    ∀ c v, trimAsciiStart s = c :: v → isAsciiWS c = false := by
  induction s with
  | nil => intro c v h; simp [trimAsciiStart] at h
  | cons x xs ih =>
    intro c v h
    by_cases hx : isAsciiWS x
    · exact ih c v (by simpa [trimAsciiStart, List.dropWhile_cons, hx] using h)
    · simp only [trimAsciiStart, List.dropWhile_cons, hx, Bool.false_eq_true,
        if_false, List.cons.injEq] at h
      rw [← h.1]
      simpa using hx

/-- The output of `trim_ascii_end` is a prefix of its input. -/
theorem trimAsciiEnd_prefix (s : Str) : trimAsciiEnd s <+: s := by
  have h1 : s.reverse.dropWhile isAsciiWS <:+ s.reverse :=
    List.dropWhile_suffix isAsciiWS
  have h2 := List.reverse_prefix.mpr h1
  simpa [trimAsciiEnd] using h2

/-- The head of a fully trimmed string is never ASCII whitespace. -/
theorem trimAscii_head (s : Str) :
    ∀ c v, trimAscii s = c :: v → isAsciiWS c = false := by
  intro c v h
  obtain ⟨t', ht⟩ := trimAsciiEnd_prefix (trimAsciiStart s)
  rw [show trimAsciiEnd (trimAsciiStart s) = trimAscii s from rfl, h] at ht
  exact trimAsciiStart_head s c (v ++ t') (by rw [← ht]; simp)

/-- Head of `split_ascii_whitespace` on input with a non-whitespace
first character: the maximal non-whitespace prefix. -/
theorem splitAsciiWhitespace_head (c : Char) (v : Str)
    (hc : isAsciiWS c = false) :
    (splitAsciiWhitespace (c :: v)).head? =
      some (c :: v.takeWhile (fun d => !(isAsciiWS d))) := by
  show (splitWSGo isAsciiWS (v.length + 1) (c :: v)).head? = _
  simp [splitWSGo, hc]

/-- For a trimmed nonempty block, the name computed by
`name_and_attrs` coincides with the first token of
`split_ascii_whitespace`: both take the maximal prefix before the first
ASCII whitespace character. -/
theorem nameAndAttrs_head (u : Str)
    (hu : ∀ c v, u = c :: v → isAsciiWS c = false)
    (hne : (xml.nameAndAttrs u).1 ≠ []) :
    (splitAsciiWhitespace u).head? = some (xml.nameAndAttrs u).1 := by
  cases u with
  | nil => simp [xml.nameAndAttrs, splitOnceAsciiWS, List.findIdx?_nil] at hne
  | cons c v =>
    have hc : isAsciiWS c = false := hu c v rfl
    rw [splitAsciiWhitespace_head c v hc]
    simp only [xml.nameAndAttrs, splitOnceAsciiWS]
    cases hfind : (c :: v).findIdx? isAsciiWS with
    | none =>
      have := findIdx_none_takeWhile isAsciiWS (c :: v) hfind
      simp only [List.takeWhile_cons, hc, Bool.not_false, if_true, reduceIte,
        List.cons.injEq, true_and] at this
      simp [this]
    | some i =>
      have htw := findIdx_some_takeWhile isAsciiWS (c :: v) i hfind
      rw [List.findIdx?_cons, List.findIdx?_succ] at hfind
      simp only [hc, Bool.false_eq_true, if_false] at hfind
      cases hv : v.findIdx? isAsciiWS with
      | none => rw [hv] at hfind; simp at hfind
      | some j =>
        rw [hv] at hfind
        simp only [Option.map_some', Option.some.injEq] at hfind
        subst hfind
        simp only [List.takeWhile_cons, hc, Bool.not_false, if_true, reduceIte,
          List.cons.injEq, true_and] at htw
        simp [htw]

/-- A reader with a pending self-closing range and input left emits the
synthetic `EndElement` named by the first token of the recorded
block. -/
theorem next_event_pending_end (buf : Str) (p a b : Nat) (nm : Str)
    (hpos : p ≠ buf.length)
    (hhead : (splitAsciiWhitespace (trimAscii (extractRange buf (a, b)))).head? =
      some nm) :
    xml.next_event { buf := buf, pos := p, selfClosing := some (a, b) } =
      Except.ok (xml.Event.endElement nm,
        { buf := buf, pos := p, selfClosing := none }) := by
  simp only [xml.next_event]
  rw [if_neg hpos, hhead]

/-- CLAIM C3 (amended): a `StartElement` whose tag body ends with `/`
is followed on the next `next_event` call by a synthetic `EndElement`
of the same name, provided input remains after the element and the tag
carried a name; at the very end of the document the reader instead
reports `EndOfFile` first.  The scenario document produces exactly the
claimed event sequence. -/
theorem C3_self_closing_synthetic_end :
    (∀ (s s₁ : xml.Reader) (name attrs : Str),
      xml.next_event s = Except.ok (xml.Event.startElement name attrs, s₁) →
      s₁.selfClosing ≠ none →
      s₁.pos ≠ s₁.buf.length →
      name ≠ [] →
      ∃ s₂, xml.next_event s₁ = Except.ok (xml.Event.endElement name, s₂)) ∧
    xml.traceEvents 8 (xml.initReader c3Doc) = c3Events := by
  constructor
  · intro s s₁ name attrs h hsc hpos hname
    simp only [xml.next_event] at h
    split at h
    · simp at h
    split at h
    · split at h <;> simp at h
    split at h
    · simp at h
    split at h
    · simp at h
    split at h
    · simp at h
    split at h <;> [simp at h; simp at h; skip]
    split at h
    · simp only [Except.ok.injEq, Prod.mk.injEq, xml.Event.startElement.injEq] at h
      obtain ⟨⟨hn, ha⟩, hs⟩ := h
      subst hs
      refine ⟨_, next_event_pending_end _ _ _ _ name hpos ?_⟩
      rw [← hn]
      exact nameAndAttrs_head _ (trimAscii_head _) (by rw [hn]; exact hname)
    · simp only [Except.ok.injEq, Prod.mk.injEq] at h
      obtain ⟨_, hs⟩ := h
      rw [← hs] at hsc
      simp at hsc
  · rfl

/-- Witness for C3: the first self-closing element of the scenario
document, whose synthetic end element follows on the next call. -/
theorem C3_witness :
    ∃ s₂,
      xml.next_event { buf := c3Doc, pos := 22, selfClosing := some (7, 20) } =
        Except.ok (xml.Event.endElement (String.toList "self-closing"), s₂) :=
  C3_self_closing_synthetic_end.1
    { buf := c3Doc, pos := 6, selfClosing := none }
    { buf := c3Doc, pos := 22, selfClosing := some (7, 20) }
    (String.toList "self-closing") [] rfl (by simp) (by decide) (by decide)

/-- Counterexample to C3 as stated universally: in the document `<a/>`
the tag body ends with `/` and a self-closing range is recorded, yet
the next `next_event` call returns `EndOfFile`, not the synthetic
`EndElement`, because the end-of-input check precedes the pending
self-closing check. -/
theorem C3_counterexample :
    xml.next_event (xml.initReader c3CounterDoc) =
      Except.ok (xml.Event.startElement (String.toList "a") [],
        { buf := c3CounterDoc, pos := 4, selfClosing := some (1, 2) }) ∧
    xml.next_event { buf := c3CounterDoc, pos := 4, selfClosing := some (1, 2) } =
      Except.ok (xml.Event.endOfFile,
        { buf := c3CounterDoc, pos := 4, selfClosing := some (1, 2) }) :=
  ⟨rfl, rfl⟩

/-- The pixel-frame relation is reflexive. -/
theorem pixelFrame_refl (b : framebuffer.DisplayBuffers) : pixelFrame b b :=
  ⟨rfl, rfl, fun _ _ => rfl, fun _ _ => rfl, fun _ _ => ⟨rfl, rfl⟩⟩

/-- The pixel-frame relation is transitive. -/
theorem pixelFrame_trans {a b c : framebuffer.DisplayBuffers}
    (h1 : pixelFrame a b) (h2 : pixelFrame b c) : pixelFrame a c := by
  obtain ⟨a1, a2, a3, a4, a5⟩ := h1
  obtain ⟨b1, b2, b3, b4, b5⟩ := h2
  refine ⟨b1.trans a1, b2.trans a2, ?_, ?_, ?_⟩
  · intro ha i
    rw [b3 (a1.trans ha) i, a3 ha i]
  · intro ha i
    rw [b4 (a1.trans ha) i, a4 ha i]
  · intro i hi
    exact ⟨(b5 i hi).1.trans (a5 i hi).1, (b5 i hi).2.trans (a5 i hi).2⟩

/-- Writing a byte below `BUFFER_SIZE` into the active framebuffer
respects the pixel frame. -/
theorem writeActive_pixelFrame (b : framebuffer.DisplayBuffers)
    (idx v : Nat) (hidx : idx < framebuffer.BUFFER_SIZE) :
    pixelFrame b (b.writeActive idx v) := by
  unfold framebuffer.DisplayBuffers.writeActive
  split <;> rename_i hact
  · refine ⟨rfl, rfl, fun _ i => rfl, ?_, ?_⟩
    · intro hfalse
      rw [hact] at hfalse
      cases hfalse
    · intro i hi
      refine ⟨rfl, ?_⟩
      show framebuffer.updateByte b.fb1 idx v i = b.fb1 i
      unfold framebuffer.updateByte
      rw [if_neg (by omega)]
  · have hact' : b.active = false := by
      cases hb : b.active
      · rfl
      · exact absurd hb hact
    refine ⟨rfl, rfl, ?_, fun _ i => rfl, ?_⟩
    · intro htrue
      rw [hact'] at htrue
      cases htrue
    · intro i hi
      refine ⟨?_, rfl⟩
      show framebuffer.updateByte b.fb0 idx v i = b.fb0 i
      unfold framebuffer.updateByte
      rw [if_neg (by omega)]

/-- Every `set_pixel` call respects the pixel frame: the write, when it
happens, lands in the active framebuffer at a byte index below
`BUFFER_SIZE`. -/
theorem set_pixel_pixelFrame (b : framebuffer.DisplayBuffers) (x y : Int)
    (c : framebuffer.BinaryColor) : pixelFrame b (b.set_pixel x y c) := by
  simp only [framebuffer.DisplayBuffers.set_pixel]
  split
  · exact pixelFrame_refl b
  split
  · rename_i hin
    refine writeActive_pixelFrame b _ _ ?_
    obtain ⟨hw, hh⟩ := hin
    unfold framebuffer.BUFFER_SIZE framebuffer.WIDTH framebuffer.HEIGHT at *
    omega
  · exact pixelFrame_refl b

/-- Each pixel step of the glyph blit either skips (out-of-extent
coordinates) or goes through `set_pixel`, so it respects the pixel
frame. -/
theorem drawGlyphPixel_pixelFrame (bitmap : Nat → Nat) (g : font.Glyph)
    (mode : font.Mode) (size : Nat × Nat) (xOff yOff : Int)
    (b : framebuffer.DisplayBuffers) (xy : Nat × Nat) :
    pixelFrame b (font.drawGlyphPixel bitmap g mode size xOff yOff b xy) := by
  simp only [font.drawGlyphPixel]
  split
  · exact pixelFrame_refl b
  split
  · split
    · exact set_pixel_pixelFrame b _ _ _
    · exact pixelFrame_refl b
  · split
    · exact set_pixel_pixelFrame b _ _ _
    · exact pixelFrame_refl b

/-- Folding pixel-frame-respecting steps over a coordinate list
respects the pixel frame. -/
theorem foldl_pixelFrame (f : framebuffer.DisplayBuffers → Nat × Nat →
      framebuffer.DisplayBuffers)
    (hf : ∀ b xy, pixelFrame b (f b xy)) :
    ∀ (l : List (Nat × Nat)) (b : framebuffer.DisplayBuffers),
      pixelFrame b (l.foldl f b) := by
  intro l
  induction l with
  | nil => intro b; exact pixelFrame_refl b
  | cons xy rest ih =>
    intro b
    exact pixelFrame_trans (hf b xy) (ih (f b xy))

/-- The whole glyph blit respects the pixel frame. -/
theorem draw_glyph_pixelFrame (fd : font.FontDefinition) (cp : Nat)
    (b : framebuffer.DisplayBuffers) (xo yo : Int) (mode : font.Mode) :
    pixelFrame b (font.draw_glyph fd cp b xo yo mode).2 := by
  simp only [font.draw_glyph]
  split
  · exact pixelFrame_refl b
  split
  · exact pixelFrame_refl b
  · exact foldl_pixelFrame _ (fun b' xy => drawGlyphPixel_pixelFrame _ _ _ _ _ _ b' xy) _ b

/-- CLAIM C10: `set_pixel` (and therefore every `draw_glyph` call)
mutates at most the active framebuffer: the inactive framebuffer, the
active flag and the rotation are unchanged for all coordinates and both
colors. -/
theorem C10_set_pixel_frame_effects :
    (∀ (b : framebuffer.DisplayBuffers) (x y : Int)
       (c : framebuffer.BinaryColor),
      (b.set_pixel x y c).active = b.active ∧
      (b.set_pixel x y c).rotation = b.rotation ∧
      (b.active = true → ∀ i, (b.set_pixel x y c).fb0 i = b.fb0 i) ∧
      (b.active = false → ∀ i, (b.set_pixel x y c).fb1 i = b.fb1 i)) ∧
    (∀ (fd : font.FontDefinition) (cp : Nat) (b : framebuffer.DisplayBuffers)
       (xo yo : Int) (mode : font.Mode),
      (font.draw_glyph fd cp b xo yo mode).2.active = b.active ∧
      (font.draw_glyph fd cp b xo yo mode).2.rotation = b.rotation ∧
      (b.active = true →
        ∀ i, (font.draw_glyph fd cp b xo yo mode).2.fb0 i = b.fb0 i) ∧
      (b.active = false →
        ∀ i, (font.draw_glyph fd cp b xo yo mode).2.fb1 i = b.fb1 i)) := by
  constructor
  · intro b x y c
    obtain ⟨h1, h2, h3, h4, _⟩ := set_pixel_pixelFrame b x y c
    exact ⟨h1, h2, h3, h4⟩
  · intro fd cp b xo yo mode
    obtain ⟨h1, h2, h3, h4, _⟩ := draw_glyph_pixelFrame fd cp b xo yo mode
    exact ⟨h1, h2, h3, h4⟩

/-- Witness for C10 at a concrete buffer state and call. -/
theorem C10_witness :
    ((framebuffer.DisplayBuffers.set_pixel
        { fb0 := fun _ => 0, fb1 := fun _ => 255, active := false,
          rotation := framebuffer.Rotation.Rotate90 } 5 7 true).active = false ∧
     (framebuffer.DisplayBuffers.set_pixel
        { fb0 := fun _ => 0, fb1 := fun _ => 255, active := false,
          rotation := framebuffer.Rotation.Rotate90 } 5 7 true).fb1 3 = 255) := by
  obtain ⟨h1, _, _, h4⟩ :=
    C10_set_pixel_frame_effects.1
      { fb0 := fun _ => 0, fb1 := fun _ => 255, active := false,
        rotation := framebuffer.Rotation.Rotate90 } 5 7 true
  exact ⟨h1, h4 rfl 3⟩

/-- CLAIM C8: glyph blitting is fully clipped.  `set_pixel` silently
skips coordinates outside the rotation-resolved extent, and neither
`set_pixel` nor `draw_glyph` touches any framebuffer byte at or beyond
`BUFFER_SIZE`, for every glyph, mode and signed offset pair. -/
theorem C8_draw_glyph_clipped :
    (∀ (b : framebuffer.DisplayBuffers) (x y : Int)
       (c : framebuffer.BinaryColor) (i : Nat),
      framebuffer.BUFFER_SIZE ≤ i →
      (b.set_pixel x y c).fb0 i = b.fb0 i ∧
      (b.set_pixel x y c).fb1 i = b.fb1 i) ∧
    (∀ (b : framebuffer.DisplayBuffers) (x y : Int)
       (c : framebuffer.BinaryColor),
      (x < 0 ∨ y < 0 ∨ x ≥ (b.size.1 : Int) ∨ y ≥ (b.size.2 : Int)) →
      b.set_pixel x y c = b) ∧
    (∀ (fd : font.FontDefinition) (cp : Nat) (b : framebuffer.DisplayBuffers)
       (xo yo : Int) (mode : font.Mode) (i : Nat),
      framebuffer.BUFFER_SIZE ≤ i →
      (font.draw_glyph fd cp b xo yo mode).2.fb0 i = b.fb0 i ∧
      (font.draw_glyph fd cp b xo yo mode).2.fb1 i = b.fb1 i) := by
  refine ⟨?_, ?_, ?_⟩
  · intro b x y c i hi
    exact (set_pixel_pixelFrame b x y c).2.2.2.2 i hi
  · intro b x y c h
    simp only [framebuffer.DisplayBuffers.set_pixel]
    rw [if_pos h]
  · intro fd cp b xo yo mode i hi
    exact (draw_glyph_pixelFrame fd cp b xo yo mode).2.2.2.2 i hi

/-- Witness for C8: a concrete buffer with a negative x offset is left
untouched, and byte `BUFFER_SIZE` survives an in-bounds write. -/
theorem C8_witness :
    (framebuffer.DisplayBuffers.set_pixel
      { fb0 := fun _ => 0, fb1 := fun _ => 255, active := false,
        rotation := framebuffer.Rotation.Rotate0 } (-5) 3 true) =
      { fb0 := fun _ => 0, fb1 := fun _ => 255, active := false,
        rotation := framebuffer.Rotation.Rotate0 } ∧
    (framebuffer.DisplayBuffers.set_pixel
      { fb0 := fun _ => 0, fb1 := fun _ => 255, active := false,
        rotation := framebuffer.Rotation.Rotate0 } 5 3 false).fb0
        framebuffer.BUFFER_SIZE = 0 := by
  constructor
  · exact C8_draw_glyph_clipped.2.1 _ (-5) 3 true (by left; decide)
  · exact (C8_draw_glyph_clipped.1 _ 5 3 false framebuffer.BUFFER_SIZE
      (le_refl _)).1

/-- Word width distributes over concatenation. -/
theorem wordWidth_foldl (f : Char → Nat) (l : Str) :
    ∀ init : Nat, l.foldl (fun acc c => acc + f c) init =
      init + layout.wordWidthN f l := by
  induction l with
  | nil => intro init; simp [layout.wordWidthN]
  | cons c cs ih =>
    intro init
    show List.foldl _ (init + f c) cs = _
    rw [ih (init + f c)]
    show _ = init + List.foldl _ (0 + f c) cs
    rw [ih (0 + f c)]
    omega

/-- Word width of an appended string is the sum of the parts. -/
theorem wordWidth_append (f : Char → Nat) (a b : Str) :
    layout.wordWidthN f (a ++ b) =
      layout.wordWidthN f a + layout.wordWidthN f b := by
  show List.foldl _ 0 (a ++ b) = _
  rw [List.foldl_append]
  rw [wordWidth_foldl f b (List.foldl (fun acc c => acc + f c) 0 a)]
  rfl

/-- Words shifted by `nudge_by` keep text and style and move right by
exactly the offset. -/
theorem nudgeBy_bound (off : Nat) (ws : List layout.Text) :
    ∀ t' ∈ layout.nudgeBy off ws, ∃ t ∈ ws,
      t'.text = t.text ∧ t'.style = t.style ∧ t'.x = t.x + off := by
  intro t' ht'
  simp only [layout.nudgeBy, List.mem_map] at ht'
  obtain ⟨t, ht, rfl⟩ := ht'
  exact ⟨t, ht, rfl, rfl, rfl⟩

/-- Words shifted by the justification loop move right by at most the
accumulated offset plus the remainder plus one base increment per
word. -/
theorem justifyGo_bound (space : Nat) (ws : List layout.Text) :
    ∀ (rem offset : Nat), ∀ t' ∈ layout.justifyGo space rem offset ws,
      ∃ t ∈ ws, t'.text = t.text ∧ t'.style = t.style ∧
        t'.x ≤ t.x + offset + rem + ws.length * space := by
  induction ws with
  | nil => intro rem offset t' ht'; simp [layout.justifyGo] at ht'
  | cons w ws ih =>
    intro rem offset t' ht'
    simp only [layout.justifyGo, List.mem_cons] at ht'
    rcases ht' with rfl | ht'
    · refine ⟨w, List.mem_cons_self w ws, rfl, rfl, ?_⟩
      simp only [List.length_cons, Nat.succ_mul]
      by_cases hr : rem > 0 <;>
        simp only [hr, if_true, if_false, reduceIte] <;> omega
    · obtain ⟨t, ht, h1, h2, h3⟩ := ih _ _ t' ht'
      refine ⟨t, List.mem_cons_of_mem w ht, h1, h2, ?_⟩
      simp only [List.length_cons, Nat.succ_mul]
      by_cases hr : rem > 0 <;>
        simp only [hr, if_true, if_false, reduceIte] at h3 <;> omega

/-- Justification moves every word right by at most the whole leftover
room. -/
theorem justify_bound (room : Nat) (ws : List layout.Text) :
    ∀ t' ∈ layout.justify room ws, ∃ t ∈ ws,
      t'.text = t.text ∧ t'.style = t.style ∧ t'.x ≤ t.x + room := by
  intro t' ht'
  simp only [layout.justify] at ht'
  by_cases hw : ws.length - 1 = 0
  · rw [if_pos hw] at ht'
    exact ⟨t', ht', rfl, rfl, Nat.le_add_right _ _⟩
  · rw [if_neg hw] at ht'
    cases ws with
    | nil => simp at ht'
    | cons w tail =>
      simp only [List.mem_cons] at ht'
      rcases ht' with rfl | ht'
      · exact ⟨t', List.mem_cons_self _ _, rfl, rfl, Nat.le_add_right _ _⟩
      · obtain ⟨t, ht, h1, h2, h3⟩ := justifyGo_bound _ tail _ _ t' ht'
        refine ⟨t, List.mem_cons_of_mem w ht, h1, h2, ?_⟩
        have hlen : (w :: tail).length - 1 = tail.length := by simp
        rw [hlen] at h3
        have hdm := Nat.div_add_mod room tail.length
        have hmod : room % tail.length ≤ room := Nat.mod_le _ _
        have : tail.length * (room / tail.length) + room % tail.length = room := hdm
        calc t'.x ≤ t.x + 0 + room % tail.length +
              tail.length * (room / tail.length) := by
                rw [Nat.mul_comm (tail.length) (room / tail.length)] at h3 ⊢
                omega
          _ = t.x + room := by omega
  
/-- Nudging moves every word right by at most the leftover space. -/
theorem nudge_bound (a : layout.Alignment) (space : Nat) (ws : List layout.Text) :
    ∀ t' ∈ layout.nudge a space ws, ∃ t ∈ ws,
      t'.text = t.text ∧ t'.style = t.style ∧ t'.x ≤ t.x + space := by
  intro t' ht'
  cases a with
  | Start => exact ⟨t', ht', rfl, rfl, Nat.le_add_right _ _⟩
  | Justify => exact ⟨t', ht', rfl, rfl, Nat.le_add_right _ _⟩
  | Center =>
    obtain ⟨t, ht, h1, h2, h3⟩ := nudgeBy_bound (space / 2) ws t' ht'
    exact ⟨t, ht, h1, h2, by omega⟩
  | End =>
    obtain ⟨t, ht, h1, h2, h3⟩ := nudgeBy_bound space ws t' ht'
    exact ⟨t, ht, h1, h2, by omega⟩

/-- Alignment moves every word right by at most the leftover space. -/
theorem align_bound (a : layout.Alignment) (space : Nat) (ws : List layout.Text) :
    ∀ t' ∈ layout.align a space ws, ∃ t ∈ ws,
      t'.text = t.text ∧ t'.style = t.style ∧ t'.x ≤ t.x + space := by
  intro t' ht'
  cases a with
  | Start => exact ⟨t', ht', rfl, rfl, Nat.le_add_right _ _⟩
  | Justify => exact justify_bound space ws t' ht'
  | Center => exact nudge_bound layout.Alignment.Center space ws t' ht'
  | End => exact nudge_bound layout.Alignment.End space ws t' ht'

/-- A line flushed with `align` at leftover `width - xe` respects the
width whenever its words ended at or before `xe`. -/
theorem align_good (o : layout.Options) (a : layout.Alignment) (xe : Nat)
    (ws : List layout.Text) (hw : goodUpTo o xe ws)
    (hxe : ws ≠ [] → xe ≤ o.width) :
    goodUpTo o o.width (layout.align a (o.width - xe) ws) := by
  intro t' ht'
  obtain ⟨t, ht, h1, h2, h3⟩ := align_bound a (o.width - xe) ws t' ht'
  have hb := hw t ht
  have hne : ws ≠ [] := by
    intro hnil
    rw [hnil] at ht
    simp at ht
  have := hxe hne
  rw [h1, h2]
  omega

/-- A line flushed with `nudge` at leftover `width - xe` respects the
width whenever its words ended at or before `xe`. -/
theorem nudge_good (o : layout.Options) (a : layout.Alignment) (xe : Nat)
    (ws : List layout.Text) (hw : goodUpTo o xe ws)
    (hxe : ws ≠ [] → xe ≤ o.width) :
    goodUpTo o o.width (layout.nudge a (o.width - xe) ws) := by
  intro t' ht'
  obtain ⟨t, ht, h1, h2, h3⟩ := nudge_bound a (o.width - xe) ws t' ht'
  have hb := hw t ht
  have hne : ws ≠ [] := by
    intro hnil
    rw [hnil] at ht
    simp at ht
  have := hxe hne
  rw [h1, h2]
  omega

/-- Invariant of the syllable loop of `hyphenateN`: whenever the loop
accepts a prefix and pushes it, the pushed word ends within
`width - remW`, the leftover budget never exceeds the initial one, and
the returned remainder is a suffix of the word. -/
theorem hyphenateGo_good (o : layout.Options) (style : font.FontStyle)
    (word : Str) (x0 : Nat) (cur : layout.Line)
    (hcur : goodUpTo o x0 cur.words)
    (hx0 : x0 + o.spaceWidth + o.dashWidth < o.width) :
    ∀ (parts : List Str) (len space : Nat),
      word.drop len = parts.join →
      layout.wordWidthN (o.font style) (word.take len) + space =
        o.width - (x0 + o.spaceWidth + o.dashWidth) →
      ∀ cur' rem remW,
        layout.hyphenateGoN o style word x0 cur parts len space =
          some (cur', rem, remW) →
        goodUpTo o (o.width - remW) cur'.words ∧
        remW ≤ o.width - (x0 + o.spaceWidth + o.dashWidth) ∧
        (∃ n, rem = word.drop n) := by
  intro parts
  induction parts with
  | nil =>
    intro len space h1 h2 cur' rem remW heq
    simp [layout.hyphenateGoN] at heq
  | cons part rest ih =>
    intro len space h1 h2 cur' rem remW heq
    simp only [layout.hyphenateGoN] at heq
    by_cases hpw : layout.wordWidthN (o.font style) part > space
    · rw [if_pos hpw] at heq
      by_cases hlen : len = 0
      · rw [if_pos hlen] at heq
        simp at heq
      · rw [if_neg hlen] at heq
        simp only [Option.some.injEq, Prod.mk.injEq] at heq
        obtain ⟨hcur', hrem, hremW⟩ := heq
        subst hcur' hrem hremW
        refine ⟨?_, by omega, ⟨len, rfl⟩⟩
        intro t ht
        simp only [List.mem_append, List.mem_singleton] at ht
        rcases ht with ht | rfl
        · have := hcur t ht
          omega
        · have hx1 : (if cur.words ≠ [] then x0 + o.spaceWidth else x0) ≤
              x0 + o.spaceWidth := by
            split <;> omega
          by_cases hstrip : (word.take len).getLast? = some '-'
          · rw [if_pos hstrip]
            have hsplit : (word.take len).dropLast ++ ['-'] = word.take len :=
              List.dropLast_append_getLast? '-' hstrip
            have hww : layout.wordWidthN (o.font style) ((word.take len).dropLast) +
                layout.wordWidthN (o.font style) ['-'] =
                layout.wordWidthN (o.font style) (word.take len) := by
              rw [← wordWidth_append, hsplit]
            have hdash : layout.wordWidthN (o.font style) ['-'] = o.font style '-' := by
              show List.foldl _ 0 ['-'] = _
              simp
            show (if cur.words ≠ [] then x0 + o.spaceWidth else x0) + o.dashWidth +
              layout.wordWidthN (o.font style) ((word.take len).dropLast) ≤
              o.width - space
            omega
          · rw [if_neg hstrip]
            show (if cur.words ≠ [] then x0 + o.spaceWidth else x0) +
              layout.wordWidthN (o.font style) (word.take len) ≤ o.width - space
            omega
    · rw [if_neg hpw] at heq
      have hj : word.drop len = part ++ rest.join := by
        rw [h1]
        simp
      have hdrop : word.drop (len + part.length) = rest.join := by
        rw [← List.drop_drop part.length len word, hj, List.drop_left]
      have htake : word.take (len + part.length) = word.take len ++ part := by
        rw [List.take_add, hj, List.take_left]
      have h2' : layout.wordWidthN (o.font style) (word.take (len + part.length)) +
          (space - layout.wordWidthN (o.font style) part) =
          o.width - (x0 + o.spaceWidth + o.dashWidth) := by
        rw [htake, wordWidth_append]
        omega
      exact ih (len + part.length) (space - layout.wordWidthN (o.font style) part)
        hdrop h2' cur' rem remW heq

/-- When `hyphenateN` accepts a prefix, the updated line fits within
`width - remW`, the remainder is no wider than the word, and the
leftover budget stays within the width. -/
theorem hyphenate_good (o : layout.Options) (x : Nat) (word : Str)
    (cur : layout.Line) (style : font.FontStyle)
    (hjoin : (o.hyph word).join = word)
    (hcur : goodUpTo o x cur.words) :
    ∀ cur' rem remW,
      layout.hyphenateN o x word cur style = some (cur', rem, remW) →
      goodUpTo o (o.width - remW) cur'.words ∧
      layout.wordWidthN (o.font style) rem ≤
        layout.wordWidthN (o.font style) word ∧
      remW ≤ o.width := by
  intro cur' rem remW heq
  simp only [layout.hyphenateN] at heq
  split at heq
  · simp at heq
  split at heq
  · simp at heq
  rename_i hlen hspace
  have hx0 : x + o.spaceWidth + o.dashWidth < o.width := by omega
  obtain ⟨hgood, hle, n, hn⟩ :=
    hyphenateGo_good o style word x cur hcur hx0 (o.hyph word) 0
      (o.width - (x + o.spaceWidth + o.dashWidth))
      (by simpa using hjoin.symm)
      (by simp [layout.wordWidthN])
      cur' rem remW heq
  refine ⟨hgood, ?_, by omega⟩
  subst hn
  have := wordWidth_append (o.font style) (word.take n) (word.drop n)
  rw [List.take_append_drop] at this
  omega
theorem placeWord_inv (o : layout.Options) (a : layout.Alignment)
    (style : font.FontStyle) (st : layout.LState) (word : Str)
    (hjoin : ∀ w, (o.hyph w).join = w)
    (hfit : o.spaceWidth + layout.wordWidthN (o.font style) word < o.width)
    (hinv : LInv o st) : LInv o (layout.placeWordN o a style st word) := by
  obtain ⟨hlines, hcur, hx⟩ := hinv
  simp only [layout.placeWordN]
  split
  · rename_i hwrap
    cases hh : layout.hyphenateN o st.x word st.cur style with
    | some t3 =>
      obtain ⟨cur', rem2, remW⟩ := t3
      dsimp only
      simp only [ne_eq, not_true_eq_false, if_false, List.nil_append, Nat.zero_add]
      obtain ⟨hg, hrw, hrb⟩ :=
        hyphenate_good o st.x word st.cur style (hjoin word) hcur cur' rem2 remW hh
      refine ⟨?_, ?_, ?_⟩
      · intro l hl
        rcases List.mem_append.mp hl with h | h
        · exact hlines l h
        · simp only [List.mem_singleton] at h
          subst h
          exact align_good o a (o.width - remW) cur'.words hg
            (fun _ => Nat.sub_le _ _)
      · intro t ht
        simp only [List.mem_singleton] at ht
        subst ht
        simp
      · intro _
        dsimp only
        have := hfit
        omega
    | none =>
      dsimp only
      simp only [ne_eq, not_true_eq_false, if_false, List.nil_append, Nat.zero_add]
      refine ⟨?_, ?_, ?_⟩
      · intro l hl
        rcases List.mem_append.mp hl with h | h
        · exact hlines l h
        · simp only [List.mem_singleton] at h
          subst h
          exact align_good o a st.x st.cur.words hcur hx
      · intro t ht
        simp only [List.mem_singleton] at ht
        subst ht
        simp
      · intro _
        dsimp only
        omega
  · rename_i hnowrap
    dsimp only
    by_cases hc : st.cur.words ≠ []
    · rw [if_pos hc]
      refine ⟨hlines, ?_, ?_⟩
      · intro t ht
        dsimp only at ht ⊢
        rcases List.mem_append.mp ht with h | h
        · have := hcur t h
          omega
        · simp only [List.mem_singleton] at h
          subst h
          simp
      · intro _
        dsimp only
        omega
    · rw [if_neg hc]
      refine ⟨hlines, ?_, ?_⟩
      · intro t ht
        dsimp only at ht ⊢
        rcases List.mem_append.mp ht with h | h
        · have := hcur t h
          omega
        · simp only [List.mem_singleton] at h
          subst h
          simp
      · intro _
        dsimp only
        omega

/-- Folding `placeWordN` over a list of fitting words preserves the
layout invariant. -/
theorem foldl_placeWord_inv (o : layout.Options) (a : layout.Alignment)
    (style : font.FontStyle) (words : List Str) :
    ∀ st : layout.LState, LInv o st →
    (∀ w ∈ words,
      o.spaceWidth + layout.wordWidthN (o.font style) w < o.width) →
    (∀ w, (o.hyph w).join = w) →
    LInv o (words.foldl (layout.placeWordN o a style) st) := by
  induction words with
  | nil =>
    intro st h _ _
    simpa using h
  | cons w ws ih =>
    intro st hinv hfit hjoin
    simp only [List.foldl_cons]
    exact ih _ (placeWord_inv o a style st w hjoin (hfit w (by simp)) hinv)
      (fun w' hw' => hfit w' (by simp [hw'])) hjoin

/-- `processRunN` preserves the layout invariant when every word of the
run fits after a space. -/
theorem processRun_inv (o : layout.Options) (a : layout.Alignment)
    (st : layout.LState) (run : layout.Run)
    (hjoin : ∀ w, (o.hyph w).join = w)
    (hfit : ∀ w ∈ splitWhitespace run.text,
      o.spaceWidth + layout.wordWidthN (o.font run.style) w < o.width)
    (hinv : LInv o st) : LInv o (layout.processRunN o a st run) := by
  have h1 := foldl_placeWord_inv o a run.style (splitWhitespace run.text)
    st hinv hfit hjoin
  simp only [layout.processRunN]
  split
  · obtain ⟨hl, hc, hx⟩ := h1
    refine ⟨?_, ?_, ?_⟩
    · intro l hl'
      rcases List.mem_append.mp hl' with h | h
      · exact hl l h
      · simp only [List.mem_singleton] at h
        subst h
        exact align_good o a _ _ hc hx
    · intro t ht
      simp at ht
    · intro hne
      simp at hne
  · exact h1

/-- Folding `processRunN` over runs preserves the layout invariant. -/
theorem foldl_processRun_inv (o : layout.Options) (a : layout.Alignment)
    (runs : List layout.Run) :
    ∀ st : layout.LState, LInv o st →
    (∀ run ∈ runs, ∀ w ∈ splitWhitespace run.text,
      o.spaceWidth + layout.wordWidthN (o.font run.style) w < o.width) →
    (∀ w, (o.hyph w).join = w) →
    LInv o (runs.foldl (layout.processRunN o a) st) := by
  induction runs with
  | nil =>
    intro st h _ _
    simpa using h
  | cons r rs ih =>
    intro st hinv hfit hjoin
    simp only [List.foldl_cons]
    exact ih _ (processRun_inv o a st r hjoin (hfit r (by simp)) hinv)
      (fun r' hr' => hfit r' (by simp [hr'])) hjoin

/-- In the wrap-free model: when the width strictly exceeds the space
width plus every word's exact width and hyphenation parts concatenate
back to the word, every placed `Text` of `layout_textN` satisfies
`x + word_width ≤ width`. -/
theorem layout_textN_good (o : layout.Options) (a : layout.Alignment)
    (indent : Nat) (runs : List layout.Run)
    (hjoin : ∀ w, (o.hyph w).join = w)
    (hfit : ∀ run ∈ runs, ∀ w ∈ splitWhitespace run.text,
      o.spaceWidth + layout.wordWidthN (o.font run.style) w < o.width) :
    ∀ line ∈ layout.layout_textN o a indent runs, ∀ t ∈ line.words,
      t.x + layout.wordWidthN (o.font t.style) t.text ≤ o.width := by
  have h0 : LInv o
      { x := indent, lines := [], cur := { words := [], hyphenated := false } } := by
    refine ⟨?_, ?_, ?_⟩
    · intro l hl
      simp at hl
    · intro t ht
      simp at ht
    · intro ht
      simp at ht
  have h := foldl_processRun_inv o a runs _ h0 hfit hjoin
  obtain ⟨hl, hc, hx⟩ := h
  intro line hline
  simp only [layout.layout_textN] at hline
  split at hline
  · rcases List.mem_append.mp hline with h | h
    · exact hl line h
    · simp only [List.mem_singleton] at h
      subst h
      exact nudge_good o a _ _ hc hx
  · exact hl line hline

/-- The wrapping fold never exceeds the exact fold. -/
theorem wordWidth_le_go (f : Char → Nat) (l : Str) :
    ∀ a b : Nat, a ≤ b →
      l.foldl (fun acc c => (acc + f c) % 65536) a ≤
        l.foldl (fun acc c => acc + f c) b := by
  induction l with
  | nil =>
    intro a b h
    simpa using h
  | cons c cs ih =>
    intro a b h
    simp only [List.foldl_cons]
    exact ih _ _ (le_trans (Nat.mod_le _ _) (by omega))

/-- The `u16` word width never exceeds the exact word width. -/
theorem wordWidth_le (f : Char → Nat) (w : Str) :
    layout.wordWidth f w ≤ layout.wordWidthN f w :=
  wordWidth_le_go f w 0 0 le_rfl

/-- Below 2^16 the wrapping fold computes the exact sum. -/
theorem wordWidth_eq_go (f : Char → Nat) (l : Str) :
    ∀ a : Nat, a + layout.wordWidthN f l < 65536 →
      l.foldl (fun acc c => (acc + f c) % 65536) a =
        a + layout.wordWidthN f l := by
  induction l with
  | nil =>
    intro a _
    simp [layout.wordWidthN]
  | cons c cs ih =>
    intro a h
    have hN : layout.wordWidthN f (c :: cs) = f c + layout.wordWidthN f cs := by
      show List.foldl _ 0 (c :: cs) = _
      simp only [List.foldl_cons, Nat.zero_add]
      exact wordWidth_foldl f cs (f c)
    rw [hN] at h
    simp only [List.foldl_cons]
    rw [Nat.mod_eq_of_lt (by omega)]
    rw [ih (a + f c) (by omega)]
    rw [hN]
    omega

/-- Words of exact width below 2^16 have equal `u16` and exact
widths. -/
theorem wordWidth_eq (f : Char → Nat) (w : Str)
    (h : layout.wordWidthN f w < 65536) :
    layout.wordWidth f w = layout.wordWidthN f w := by
  have := wordWidth_eq_go f w 0 (by omega)
  simpa using this

/-- Each part of a decomposition weighs at most the whole. -/
theorem wordWidthN_join_le (f : Char → Nat) (parts : List Str) :
    ∀ part ∈ parts, layout.wordWidthN f part ≤ layout.wordWidthN f parts.join := by
  induction parts with
  | nil =>
    intro p hp
    simp at hp
  | cons q qs ih =>
    intro p hp
    have hj : layout.wordWidthN f (q :: qs).join =
        layout.wordWidthN f q + layout.wordWidthN f qs.join := by
      have hc : (q :: qs).join = q ++ qs.join := rfl
      rw [hc]
      exact wordWidth_append f q qs.join
    rcases List.mem_cons.mp hp with h | h
    · subst h
      omega
    · have := ih p h
      omega

/-- When every syllable's exact width is below 2^16 and the cursor sum
cannot wrap, the `u16` syllable loop agrees with the exact one. -/
theorem hyphenateGo_eq (o : layout.Options) (style : font.FontStyle)
    (word : Str) (x0 : Nat) (cur : layout.Line)
    (hx : x0 + o.spaceWidth + o.dashWidth < 65536) :
    ∀ (parts : List Str) (len space : Nat),
      (∀ part ∈ parts, layout.wordWidthN (o.font style) part < 65536) →
      layout.hyphenateGo o style word x0 cur parts len space =
        layout.hyphenateGoN o style word x0 cur parts len space := by
  intro parts
  induction parts with
  | nil =>
    intro len space _
    rfl
  | cons q qs ih =>
    intro len space hp
    simp only [layout.hyphenateGo, layout.hyphenateGoN]
    rw [wordWidth_eq (o.font style) q (hp q (by simp))]
    by_cases hgt : layout.wordWidthN (o.font style) q > space
    · rw [if_pos hgt, if_pos hgt]
      by_cases hlen : len = 0
      · rw [if_pos hlen, if_pos hlen]
      · rw [if_neg hlen, if_neg hlen]
        by_cases hc : cur.words ≠ []
        · rw [if_pos hc, if_pos hc]
          rw [Nat.mod_eq_of_lt (show x0 + o.spaceWidth < 65536 by omega)]
          rw [Nat.mod_eq_of_lt
            (show x0 + o.spaceWidth + o.dashWidth < 65536 by omega)]
        · rw [if_neg hc, if_neg hc]
          rw [Nat.mod_eq_of_lt (show x0 + o.dashWidth < 65536 by omega)]
    · rw [if_neg hgt, if_neg hgt]
      exact ih (len + q.length) (space - layout.wordWidthN (o.font style) q)
        (fun p hp' => hp p (by simp [hp']))

/-- When the cursor sum cannot wrap and every hyphenation part of the
word has exact width below 2^16, the `u16` hyphenation routine agrees
with the exact one. -/
theorem hyphenate_eq (o : layout.Options) (x : Nat) (word : Str)
    (cur : layout.Line) (style : font.FontStyle)
    (hx : x + o.spaceWidth + o.dashWidth < 65536)
    (hp : ∀ part ∈ o.hyph word, layout.wordWidthN (o.font style) part < 65536) :
    layout.hyphenate o x word cur style =
      layout.hyphenateN o x word cur style := by
  simp only [layout.hyphenate, layout.hyphenateN]
  rw [Nat.mod_eq_of_lt hx]
  by_cases h5 : word.length < 5
  · rw [if_pos h5, if_pos h5]
  · rw [if_neg h5, if_neg h5]
    by_cases hsp : o.width - (x + o.spaceWidth + o.dashWidth) = 0
    · rw [if_pos hsp, if_pos hsp]
    · rw [if_neg hsp, if_neg hsp]
      exact hyphenateGo_eq o style word x cur hx (o.hyph word) 0 _ hp

/-- Under the amended numeric bounds the `u16` word placement agrees
with the exact one: no intermediate cursor sum reaches 2^16. -/
theorem placeWord_eq (o : layout.Options) (a : layout.Alignment)
    (style : font.FontStyle) (st : layout.LState) (word : Str)
    (hjoin : ∀ w, (o.hyph w).join = w)
    (h2w : 2 * o.width ≤ 65536)
    (hD : o.width + o.spaceWidth + o.dashWidth < 65536)
    (hxle : st.x ≤ o.width)
    (hcur : goodUpTo o st.x st.cur.words)
    (hfit : o.spaceWidth + layout.wordWidthN (o.font style) word < o.width) :
    layout.placeWord o a style st word =
      layout.placeWordN o a style st word := by
  have hwwlt : layout.wordWidthN (o.font style) word < 65536 := by omega
  have hww := wordWidth_eq (o.font style) word hwwlt
  have hparts : ∀ part ∈ o.hyph word,
      layout.wordWidthN (o.font style) part < 65536 := by
    intro p hp
    have := wordWidthN_join_le (o.font style) (o.hyph word) p hp
    rw [hjoin word] at this
    omega
  simp only [layout.placeWord, layout.placeWordN]
  rw [hww]
  rw [Nat.mod_eq_of_lt
    (show st.x + o.spaceWidth + layout.wordWidthN (o.font style) word < 65536
      by omega)]
  by_cases hg :
      st.x + o.spaceWidth + layout.wordWidthN (o.font style) word ≥ o.width
  · rw [if_pos hg, if_pos hg]
    rw [hyphenate_eq o st.x word st.cur style (by omega) hparts]
    cases hh : layout.hyphenateN o st.x word st.cur style with
    | some t3 =>
      obtain ⟨cur', rem, remW⟩ := t3
      obtain ⟨_, hremle, _⟩ :=
        hyphenate_good o st.x word st.cur style (hjoin word) hcur cur' rem remW hh
      dsimp only
      rw [wordWidth_eq (o.font style) rem (by omega)]
      simp only [ne_eq, not_true_eq_false, if_false]
      rw [Nat.mod_eq_of_lt
        (show 0 + layout.wordWidthN (o.font style) rem < 65536 by omega)]
    | none =>
      dsimp only
      simp only [ne_eq, not_true_eq_false, if_false]
      rw [Nat.mod_eq_of_lt
        (show 0 + layout.wordWidthN (o.font style) word < 65536 by omega)]
  · rw [if_neg hg, if_neg hg]
    dsimp only
    by_cases hc : st.cur.words ≠ []
    · rw [if_pos hc, if_pos hc]
      rw [Nat.mod_eq_of_lt (show st.x + o.spaceWidth < 65536 by omega)]
      rw [Nat.mod_eq_of_lt
        (show st.x + o.spaceWidth + layout.wordWidthN (o.font style) word < 65536
          by omega)]
    · rw [if_neg hc, if_neg hc]
      rw [Nat.mod_eq_of_lt
        (show st.x + layout.wordWidthN (o.font style) word < 65536 by omega)]

/-- The exact-model word placement keeps the cursor within the
width. -/
theorem placeWordN_x_le (o : layout.Options) (a : layout.Alignment)
    (style : font.FontStyle) (st : layout.LState) (word : Str)
    (hjoin : ∀ w, (o.hyph w).join = w)
    (hcur : goodUpTo o st.x st.cur.words)
    (hfit : o.spaceWidth + layout.wordWidthN (o.font style) word < o.width) :
    (layout.placeWordN o a style st word).x ≤ o.width := by
  simp only [layout.placeWordN]
  split
  · rename_i hwrap
    cases hh : layout.hyphenateN o st.x word st.cur style with
    | some t3 =>
      obtain ⟨cur', rem, remW⟩ := t3
      obtain ⟨_, hremle, _⟩ :=
        hyphenate_good o st.x word st.cur style (hjoin word) hcur cur' rem remW hh
      dsimp only
      simp only [ne_eq, not_true_eq_false, if_false]
      omega
    | none =>
      dsimp only
      simp only [ne_eq, not_true_eq_false, if_false]
      omega
  · rename_i hg
    dsimp only
    by_cases hc : st.cur.words ≠ []
    · rw [if_pos hc]
      omega
    · rw [if_neg hc]
      omega

/-- The exact-model word loop keeps the cursor within the width. -/
theorem foldl_placeWordN_x_le (o : layout.Options) (a : layout.Alignment)
    (style : font.FontStyle) (words : List Str)
    (hjoin : ∀ w, (o.hyph w).join = w) :
    ∀ st : layout.LState, LInv o st → st.x ≤ o.width →
    (∀ w ∈ words,
      o.spaceWidth + layout.wordWidthN (o.font style) w < o.width) →
    (words.foldl (layout.placeWordN o a style) st).x ≤ o.width := by
  induction words with
  | nil =>
    intro st _ h _
    simpa using h
  | cons w ws ih =>
    intro st hinv hxle hfit
    simp only [List.foldl_cons]
    exact ih _ (placeWord_inv o a style st w hjoin (hfit w (by simp)) hinv)
      (placeWordN_x_le o a style st w hjoin hinv.2.1 (hfit w (by simp)))
      (fun w' hw' => hfit w' (by simp [hw']))

/-- Under the amended numeric bounds the `u16` word loop agrees with
the exact one. -/
theorem foldl_placeWord_eq (o : layout.Options) (a : layout.Alignment)
    (style : font.FontStyle) (words : List Str)
    (hjoin : ∀ w, (o.hyph w).join = w)
    (h2w : 2 * o.width ≤ 65536)
    (hD : o.width + o.spaceWidth + o.dashWidth < 65536) :
    ∀ st : layout.LState, LInv o st → st.x ≤ o.width →
    (∀ w ∈ words,
      o.spaceWidth + layout.wordWidthN (o.font style) w < o.width) →
    words.foldl (layout.placeWord o a style) st =
      words.foldl (layout.placeWordN o a style) st := by
  induction words with
  | nil =>
    intro st _ _ _
    rfl
  | cons w ws ih =>
    intro st hinv hxle hfit
    simp only [List.foldl_cons]
    rw [placeWord_eq o a style st w hjoin h2w hD hxle hinv.2.1 (hfit w (by simp))]
    exact ih _ (placeWord_inv o a style st w hjoin (hfit w (by simp)) hinv)
      (placeWordN_x_le o a style st w hjoin hinv.2.1 (hfit w (by simp)))
      (fun w' hw' => hfit w' (by simp [hw']))

/-- Under the amended numeric bounds the `u16` per-run loop body agrees
with the exact one. -/
theorem processRun_eq (o : layout.Options) (a : layout.Alignment)
    (st : layout.LState) (run : layout.Run)
    (hjoin : ∀ w, (o.hyph w).join = w)
    (h2w : 2 * o.width ≤ 65536)
    (hD : o.width + o.spaceWidth + o.dashWidth < 65536)
    (hinv : LInv o st) (hxle : st.x ≤ o.width)
    (hfit : ∀ w ∈ splitWhitespace run.text,
      o.spaceWidth + layout.wordWidthN (o.font run.style) w < o.width) :
    layout.processRun o a st run = layout.processRunN o a st run := by
  simp only [layout.processRun, layout.processRunN]
  rw [foldl_placeWord_eq o a run.style (splitWhitespace run.text) hjoin h2w hD
    st hinv hxle hfit]

/-- The exact-model per-run loop body keeps the cursor within the
width. -/
theorem processRunN_x_le (o : layout.Options) (a : layout.Alignment)
    (st : layout.LState) (run : layout.Run)
    (hjoin : ∀ w, (o.hyph w).join = w)
    (hinv : LInv o st) (hxle : st.x ≤ o.width)
    (hfit : ∀ w ∈ splitWhitespace run.text,
      o.spaceWidth + layout.wordWidthN (o.font run.style) w < o.width) :
    (layout.processRunN o a st run).x ≤ o.width := by
  simp only [layout.processRunN]
  split
  · simp
  · exact foldl_placeWordN_x_le o a run.style (splitWhitespace run.text) hjoin
      st hinv hxle hfit

/-- Under the amended numeric bounds the `u16` run loop agrees with the
exact one. -/
theorem foldl_processRun_eq (o : layout.Options) (a : layout.Alignment)
    (runs : List layout.Run)
    (hjoin : ∀ w, (o.hyph w).join = w)
    (h2w : 2 * o.width ≤ 65536)
    (hD : o.width + o.spaceWidth + o.dashWidth < 65536) :
    ∀ st : layout.LState, LInv o st → st.x ≤ o.width →
    (∀ run ∈ runs, ∀ w ∈ splitWhitespace run.text,
      o.spaceWidth + layout.wordWidthN (o.font run.style) w < o.width) →
    runs.foldl (layout.processRun o a) st =
      runs.foldl (layout.processRunN o a) st := by
  induction runs with
  | nil =>
    intro st _ _ _
    rfl
  | cons r rs ih =>
    intro st hinv hxle hfit
    simp only [List.foldl_cons]
    rw [processRun_eq o a st r hjoin h2w hD hinv hxle (hfit r (by simp))]
    exact ih _ (processRun_inv o a st r hjoin (hfit r (by simp)) hinv)
      (processRunN_x_le o a st r hjoin hinv hxle (hfit r (by simp)))
      (fun r' hr' => hfit r' (by simp [hr']))

/-- Under the amended numeric bounds the `u16` layout pipeline agrees
with the exact one. -/
theorem layout_text_eq (o : layout.Options) (a : layout.Alignment)
    (indent : Nat) (runs : List layout.Run)
    (hjoin : ∀ w, (o.hyph w).join = w)
    (h2w : 2 * o.width ≤ 65536)
    (hD : o.width + o.spaceWidth + o.dashWidth < 65536)
    (hind : indent ≤ o.width)
    (hfit : ∀ run ∈ runs, ∀ w ∈ splitWhitespace run.text,
      o.spaceWidth + layout.wordWidthN (o.font run.style) w < o.width) :
    layout.layout_text o a indent runs =
      layout.layout_textN o a indent runs := by
  have h0 : LInv o
      { x := indent, lines := [], cur := { words := [], hyphenated := false } } := by
    refine ⟨?_, ?_, ?_⟩
    · intro l hl
      simp at hl
    · intro t ht
      simp at ht
    · intro ht
      simp at ht
  simp only [layout.layout_text, layout.layout_textN]
  rw [foldl_processRun_eq o a runs hjoin h2w hD _ h0 hind hfit]

/-- CLAIM C4 (amended): for every layout input whose width strictly
exceeds the space width plus the exact (glyph-advance-sum) width of
every word occurring in the runs, and whose sizes keep the `u16`
cursor arithmetic of `layout_text` below 2^16 — twice the width at
most 65536, width + space width + dash width below 65536, and the
indent at most the width — and whose hyphenation parts concatenate
back to the word (as `hypher` guarantees), every `Text` placed by
`layout_text` in every emitted `Line` satisfies
`x + word_width ≤ width`, for all four alignments including
`Justify`.  Without the added size bounds the property fails: see the
counterexample. -/
theorem C4_layout_within_width (o : layout.Options) (a : layout.Alignment)
    (indent : Nat) (runs : List layout.Run)
    (hjoin : ∀ w, (o.hyph w).join = w)
    (h2w : 2 * o.width ≤ 65536)
    (hD : o.width + o.spaceWidth + o.dashWidth < 65536)
    (hind : indent ≤ o.width)
    (hfit : ∀ run ∈ runs, ∀ w ∈ splitWhitespace run.text,
      o.spaceWidth + layout.wordWidthN (o.font run.style) w < o.width) :
    ∀ line ∈ layout.layout_text o a indent runs, ∀ t ∈ line.words,
      t.x + layout.wordWidth (o.font t.style) t.text ≤ o.width := by
  rw [layout_text_eq o a indent runs hjoin h2w hD hind hfit]
  intro line hline t ht
  have hN := layout_textN_good o a indent runs hjoin hfit line hline t ht
  have hle := wordWidth_le (o.font t.style) t.text
  omega

/-- Witness for C4: on a concrete five-word run under the size bounds,
the justified word placed at x = 80 with width 20 stays within the
100-pixel line. -/
theorem C4_witness :
    (80 : Nat) + layout.wordWidth (c4Opts.font font.FontStyle.Regular)
      "dd".toList ≤ c4Opts.width := by
  have h := C4_layout_within_width c4Opts layout.Alignment.Justify 0 c4Runs
    (fun w => by simp [c4Opts]) (by decide) (by decide) (by decide) (by decide)
  exact h
    { words :=
        [{ text := "aa".toList, x := 0, style := font.FontStyle.Regular },
         { text := "bb".toList, x := 27, style := font.FontStyle.Regular },
         { text := "cc".toList, x := 54, style := font.FontStyle.Regular },
         { text := "dd".toList, x := 80, style := font.FontStyle.Regular }],
      hyphenated := false }
    (by decide)
    { text := "dd".toList, x := 80, style := font.FontStyle.Regular }
    (by decide)

/-- Counterexample to C4 as stated: with width 60000 and two words of
width 35000 (the original hypothesis width > space width + widest word
holds), the `u16` wrap-guard sum for the second word, 70005, wraps to
4469, the line break is skipped, and the word is placed at x = 35005
with 35005 + 35000 = 70005 > 60000. -/
theorem C4_counterexample :
    (∀ run ∈ c4OverRuns, ∀ w ∈ splitWhitespace run.text,
      c4OverOpts.spaceWidth +
        layout.wordWidth (c4OverOpts.font run.style) w < c4OverOpts.width) ∧
    ¬ (∀ line ∈ layout.layout_text c4OverOpts layout.Alignment.Start 0 c4OverRuns,
        ∀ t ∈ line.words,
          t.x + layout.wordWidth (c4OverOpts.font t.style) t.text ≤
            c4OverOpts.width) := by
  constructor
  · decide
  · decide
